import Mathlib

/-!
Verification of the WStorage card-importer pipeline
(`tools/ws-card-importer/`): a shallow embedding of the pure data
transformations and control-flow state machines of
`download_official_cards.py`, `cardlist_search.py`, `card_page.py` and
`import_cards.py`, together with theorems settling the specified
properties.

Strings are modelled as Lean `String`s; the Python string helpers used by
the code (`str.strip`, `str.lower`, `str.upper`, `str.startswith`,
substring tests, `str.strip(chars)`) are re-implemented character-wise
below.  Case conversion is modelled on the ASCII range, which covers every
alphabet the code compares against.
-/

set_option maxRecDepth 4096

/-! ## Python string primitives -/

/-- Whitespace characters removed by Python's `str.strip()`. -/
def isPySpace (c : Char) : Bool :=
  c == ' ' || c == '\t' || c == '\n' || c == '\r' || c == '\x0b' || c == '\x0c'

/-- `str.strip()` on a character list: drop whitespace from both ends. -/
def pyStripL (l : List Char) : List Char :=
  ((l.dropWhile isPySpace).reverse.dropWhile isPySpace).reverse

/-- Python `str.strip()`. -/
def pyStrip (s : String) : String := String.mk (pyStripL s.data)

/-- ASCII lower-casing of one character (models `str.lower` on ASCII). -/
def pyCharLower (c : Char) : Char :=
  if 65 ≤ c.toNat ∧ c.toNat ≤ 90 then Char.ofNat (c.toNat + 32) else c

/-- ASCII upper-casing of one character (models `str.upper` on ASCII). -/
def pyCharUpper (c : Char) : Char :=
  if 97 ≤ c.toNat ∧ c.toNat ≤ 122 then Char.ofNat (c.toNat - 32) else c

/-- Python `str.lower()` (ASCII model). -/
def pyLower (s : String) : String := String.mk (s.data.map pyCharLower)

/-- Python `str.upper()` (ASCII model). -/
def pyUpper (s : String) : String := String.mk (s.data.map pyCharUpper)

/-- `pre` is a literal prefix of `l` (models `str.startswith`). -/
def listStartsWith : List Char → List Char → Bool
  | [], _ => true
  | _ :: _, [] => false
  | a :: as, b :: bs => a == b && listStartsWith as bs

/-- Python `s.startswith(pre)`. -/
def pyStartsWith (s pre : String) : Bool := listStartsWith pre.data s.data

/-- `needle` occurs as a contiguous sublist of `hay` (models Python `in`). -/
def containsSubL (needle : List Char) : List Char → Bool
  | [] => needle.isEmpty
  | c :: rest => listStartsWith needle (c :: rest) || containsSubL needle rest

/-- Python `needle in hay` for strings. -/
def pyContains (hay needle : String) : Bool := containsSubL needle.data hay.data

/-! ## Rarity normalisation (`download_official_cards.py` lines 29-39, 451-455) -/

/-- The fixed table `RARITY_NORMALISATION`. -/
def RARITY_NORMALISATION : List (String × String) :=
  [("C", "C"), ("U", "U"), ("R", "R"), ("SR", "SR"), ("RR", "SR"),
   ("RRR", "SP"), ("SEC", "SP"), ("SP", "SP"), ("SSP", "SP")]

/-- `normalise_rarity(value)`: `None`/empty map to `"C"`; otherwise the
stripped, upper-cased label is looked up in the table with default `"R"`. -/
def normaliseRarity : Option String → String
  | none => "C"
  | some v =>
    if v = "" then "C"
    else
      let v := pyUpper (pyStrip v)
      match RARITY_NORMALISATION.find? (fun p => p.1 == v) with
      | some p => p.2
      | none => "R"

/-! ## CardRow dataclass fields versus the keyword arguments passed to it

`import_cards.py` (lines 42-53) declares the `CardRow` dataclass with
exactly ten fields.  `download_official_cards.py` constructs `CardRow`
with an additional `effect=` keyword in both `build_card_row`
(lines 347-359) and `load_offline_bundle` (lines 496-511).  A Python
dataclass call accepts only keywords naming declared fields, so we record
both name lists and the acceptance check. -/

/-- Field names of the `CardRow` dataclass in `import_cards.py`. -/
def cardRowFields : List String :=
  ["id", "seriesId", "cardCode", "title", "rarity", "description",
   "color", "level", "cost", "imageUrl"]

/-- Keyword arguments passed to `CardRow(...)` by `load_offline_bundle`
(`download_official_cards.py` lines 496-511). -/
def loadOfflineCardKwargs : List String :=
  ["id", "seriesId", "cardCode", "title", "rarity", "description",
   "color", "level", "cost", "imageUrl", "effect"]

/-- A Python call `Dataclass(**kwargs)` with keyword arguments only is
accepted exactly when every keyword names a declared field (otherwise
`TypeError: unexpected keyword argument`). -/
def dataclassCallAccepted (fields kwargs : List String) : Bool :=
  kwargs.all fields.contains

/-! ## Search-client initialisation cache (`download_official_cards.py` lines 47-48, 182-194)

`_ensure_search_client` consults the module-global `_SEARCH_CLIENT`: a
constructed client is reused; the sentinel `_SEARCH_CLIENT_FAILED` makes
every later call raise `CardSearchError` immediately; otherwise the
constructor runs (config discovery), and a `CardSearchError` from it is
cached as the sentinel while any other exception leaves the global
unset. -/

inductive SCState where
  | uninit
  | ready
  | failed
  deriving DecidableEq, Repr

/-- Outcome of running the `CardSearchClient` constructor once. -/
inductive CtorOutcome where
  | ok
  | searchErr
  | otherErr
  deriving DecidableEq, Repr

/-- Result of one `_ensure_search_client` call. -/
inductive SCResult where
  | gotClient
  | raisedSearchError
  | raisedOther
  deriving DecidableEq, Repr

/-- One call to `_ensure_search_client`.  Returns the new global state,
whether the constructor (config discovery) was attempted, and the call's
outcome. -/
def ensureSearchClient (ctor : CtorOutcome) : SCState → SCState × Bool × SCResult
  | SCState.ready => (SCState.ready, false, SCResult.gotClient)
  | SCState.failed => (SCState.failed, false, SCResult.raisedSearchError)
  | SCState.uninit =>
    match ctor with
    | CtorOutcome.ok => (SCState.ready, true, SCResult.gotClient)
    | CtorOutcome.searchErr => (SCState.failed, true, SCResult.raisedSearchError)
    | CtorOutcome.otherErr => (SCState.uninit, true, SCResult.raisedOther)

/-- A sequence of `_ensure_search_client` calls (one constructor outcome
per call, used only if that call actually constructs), threading the
module-global state and collecting each call's (attempted, result) pair. -/
def searchClientCalls : List CtorOutcome → SCState → SCState × List (Bool × SCResult)
  | [], s => (s, [])
  | ctor :: rest, s =>
    let (s', att, res) := ensureSearchClient ctor s
    let (sf, events) := searchClientCalls rest s'
    (sf, (att, res) :: events)

/-! ## Slugging (`download_official_cards.py` lines 405-427, 515-522) -/

/-- `c` is a lower-case ASCII letter or digit (the class `[a-z0-9]`). -/
def isLowerAlnum (c : Char) : Bool :=
  (decide (97 ≤ c.toNat) && decide (c.toNat ≤ 122)) ||
  (decide (48 ≤ c.toNat) && decide (c.toNat ≤ 57))

/-- ASCII letter (the Python `str.isalpha` test, ASCII model). -/
def isAsciiAlpha (c : Char) : Bool :=
  (decide (65 ≤ c.toNat) && decide (c.toNat ≤ 90)) ||
  (decide (97 ≤ c.toNat) && decide (c.toNat ≤ 122))

/-- ASCII digit. -/
def isAsciiDigit (c : Char) : Bool :=
  decide (48 ≤ c.toNat) && decide (c.toNat ≤ 57)

/-- `re.sub` of every maximal run of characters satisfying `p` by the single
character `sep`.  The boolean argument records whether the previous
character was part of a run. -/
def collapseRuns (p : Char → Bool) (sep : Char) : Bool → List Char → List Char
  | _, [] => []
  | inRun, c :: rest =>
    if p c then
      if inRun then collapseRuns p sep true rest
      else sep :: collapseRuns p sep true rest
    else c :: collapseRuns p sep false rest

/-- Drop all trailing characters satisfying `P`. -/
def dropTrail (P : Char → Bool) : List Char → List Char
  | [] => []
  | c :: rest =>
    let r := dropTrail P rest
    if r.isEmpty && P c then [] else c :: r

/-- Python `s.strip(sep)` for a single strip character: remove every
leading and trailing occurrence of `sep`. -/
def stripCharL (sep : Char) (l : List Char) : List Char :=
  dropTrail (· == sep) (l.dropWhile (· == sep))

/-- `slugify_card_code`: lower-case, replace every run of characters
outside `[a-z0-9]` by a single hyphen (`re.sub(r"[^a-z0-9]+", "-", ...)`),
then strip hyphens from both ends. -/
def slugifyCardCode (cardCode : String) : String :=
  String.mk (stripCharL '-'
    (collapseRuns (fun c => !isLowerAlnum c) '-' false (cardCode.data.map pyCharLower)))

/-- `slugify_series_id`: identical body to `slugify_card_code`. -/
def slugifySeriesId (setCode : String) : String :=
  String.mk (stripCharL '-'
    (collapseRuns (fun c => !isLowerAlnum c) '-' false (setCode.data.map pyCharLower)))

/-- Python `str.replace` for single characters. -/
def pyReplaceChar (a b : Char) (l : List Char) : List Char :=
  l.map fun c => if c == a then b else c

/-- `_collapse_identifier`: `re.sub(r"[^0-9a-z_]+", "_", ...)`, then
`re.sub(r"_+", "_", ...)`, then `strip("_")`. -/
def collapseIdentifier (l : List Char) : List Char :=
  stripCharL '_'
    (collapseRuns (· == '_') '_' false
      (collapseRuns (fun c => !(isLowerAlnum c || c == '_')) '_' false l))

/-- `_slugify_set_code`: lower-case, strip whitespace, `/` to `_`,
collapse. -/
def slugifySetCodeU (setCode : String) : String :=
  String.mk (collapseIdentifier
    (pyReplaceChar '/' '_' (pyStripL (setCode.data.map pyCharLower))))

/-- `_slugify_card_code`: lower-case, strip whitespace, `/` and `-` to
`_`, collapse. -/
def slugifyCardCodeU (cardCode : String) : String :=
  String.mk (collapseIdentifier
    (pyReplaceChar '-' '_' (pyReplaceChar '/' '_' (pyStripL (cardCode.data.map pyCharLower)))))

/-- `_first_alpha`: the first alphabetic character of `value`, else
`value[0]`, else `"card"`. -/
def firstAlpha (value : String) : String :=
  match value.data.find? isAsciiAlpha with
  | some c => String.mk [c]
  | none =>
    match value.data with
    | [] => "card"
    | c :: _ => String.mk [c]

/-! ## Image URL normalisation (`download_official_cards.py` lines 379-402) -/

/-- `build_default_image_url`: the canonical predictable image URL derived
from the set and card codes. -/
def buildDefaultImageUrl (cardCode setCode : String) : String :=
  let setSlug := slugifySetCodeU setCode
  let cardSlug := slugifyCardCodeU cardCode
  let firstPart := if setSlug = "" then "card" else firstAlpha setSlug
  "https://ws-tcg.com/wordpress/wp-content/images/cardlist/" ++
    firstPart ++ "/" ++ setSlug ++ "/" ++ cardSlug ++ ".png"

/-- Final stage of `normalise_image_url`, applied after stripping and
protocol-relative upgrading: absolute `http(s)` input is passed through
unless it matches the canonical image path, in which case the canonical
URL is substituted; everything else falls back to the canonical URL. -/
def normaliseImageUrlAbs (t : String) (cardCode setCode : String) : String :=
  if pyStartsWith t "http://" || pyStartsWith t "https://" then
    if pyContains t "/cardlist/cardimages/" then buildDefaultImageUrl cardCode setCode
    else t
  else buildDefaultImageUrl cardCode setCode

/-- `normalise_image_url`: empty or missing input falls back to the
canonical URL; otherwise the input is stripped, protocol-relative `//`
input is upgraded to `https`, and the result is dispatched to
`normaliseImageUrlAbs`. -/
def normaliseImageUrl (imageUrl : Option String) (cardCode setCode : String) : String :=
  match imageUrl with
  | none => buildDefaultImageUrl cardCode setCode
  | some s =>
    if s = "" then buildDefaultImageUrl cardCode setCode
    else if pyStrip s = "" then buildDefaultImageUrl cardCode setCode
    else
      normaliseImageUrlAbs
        (if pyStartsWith (pyStrip s) "//" then "https:" ++ pyStrip s else pyStrip s)
        cardCode setCode

/-! ## Card detail page URL (`card_page.py` lines 18, 75-82) -/

/-- UTF-8 bytes of one character. -/
def utf8Bytes (c : Char) : List Nat :=
  let n := c.toNat
  if n < 128 then [n]
  else if n < 2048 then [192 + n / 64, 128 + n % 64]
  else if n < 65536 then [224 + n / 4096, 128 + (n / 64) % 64, 128 + n % 64]
  else [240 + n / 262144, 128 + (n / 4096) % 64, 128 + (n / 64) % 64, 128 + n % 64]

/-- Upper-case hexadecimal digit for `n < 16`. -/
def hexDigitU (n : Nat) : Char :=
  if n < 10 then Char.ofNat (48 + n) else Char.ofNat (55 + n)

/-- `%XX` percent-encoding of one byte. -/
def percentEncodeByte (b : Nat) : List Char :=
  ['%', hexDigitU (b / 16), hexDigitU (b % 16)]

/-- Characters `urllib.parse.quote` never encodes. -/
def quoteAlwaysSafe (c : Char) : Bool :=
  isAsciiAlpha c || isAsciiDigit c || c == '_' || c == '.' || c == '-' || c == '~'

/-- `urllib.parse.quote(s, safe=...)`: safe characters are kept, all
others are percent-encoded byte-wise (UTF-8). -/
def pyQuote (s : String) (safe : List Char) : String :=
  String.mk
    ((s.data.map fun c =>
      if quoteAlwaysSafe c || safe.contains c then [c]
      else (utf8Bytes c).foldr (fun b acc => percentEncodeByte b ++ acc) []).foldr
        (fun part acc => part ++ acc) [])

/-- `CARD_PAGE_URL_TEMPLATE.format(card_code=..., lang_suffix=...)`. -/
def cardPageUrlTemplate (cardCode langSuffix : String) : String :=
  "https://ws-tcg.com/cardlist/?cardno=" ++ cardCode ++ langSuffix

/-- `build_card_page_url`: percent-encode the card code (keeping `/` and
`-`), lower-case and strip the language; Japanese/default languages give
the bare suffix `&l`, all others give `&l=<quoted language>`. -/
def buildCardPageUrl (cardCode language : String) : String :=
  let encoded := pyQuote cardCode ['/', '-']
  let lang := pyLower (pyStrip language)
  let langSuffix :=
    if lang = "" ∨ lang ∈ (["ja", "jp", "japanese"] : List String) then "&l"
    else "&l=" ++ pyQuote lang []
  cardPageUrlTemplate encoded langSuffix

/-! ## Export bundle data model (`import_cards.py` lines 34-59) -/

/-- The `SeriesRow` dataclass. -/
structure SeriesRow where
  id : String
  name : String
  setCode : String
  releaseYear : Int
  deriving DecidableEq, Repr

/-- The `CardRow` dataclass (the ten declared fields). -/
structure CardRow where
  id : String
  seriesId : String
  cardCode : String
  title : String
  rarity : String
  description : String
  color : Option String
  level : Option Int
  cost : Option Int
  imageUrl : Option String
  deriving DecidableEq, Repr

/-- The `ExportBundle` dataclass. -/
structure ExportBundle where
  series : List SeriesRow
  cards : List CardRow
  deriving DecidableEq, Repr

/-! ## `merge_bundles` (`download_official_cards.py` lines 458-476) -/

/-- First-occurrence dedup by key with an explicit seen set: the
accumulation loops of `merge_bundles` (append an item only when its key
has not been seen, then record the key). -/
def dedupByKey {α κ : Type} [DecidableEq κ] (key : α → κ) : List κ → List α → List α
  | _, [] => []
  | seen, a :: rest =>
    if key a ∈ seen then dedupByKey key seen rest
    else a :: dedupByKey key (key a :: seen) rest

/-- Python string comparison: lexicographic on code points, a proper
prefix is smaller. -/
def strLtb : List Char → List Char → Bool
  | [], [] => false
  | [], _ :: _ => true
  | _ :: _, [] => false
  | a :: as, b :: bs =>
    if a.toNat < b.toNat then true
    else if b.toNat < a.toNat then false
    else strLtb as bs

/-- Python comparison of the sort-key tuples
`(a.seriesId, a.cardCode) < (b.seriesId, b.cardCode)`. -/
def cardKeyLt (a b : CardRow) : Bool :=
  strLtb a.seriesId.data b.seriesId.data ||
    (a.seriesId == b.seriesId && strLtb a.cardCode.data b.cardCode.data)

/-- Insert a card after every card whose key is not strictly greater: the
position a stable sort assigns to it. -/
def insertCard (a : CardRow) : List CardRow → List CardRow
  | [] => [a]
  | b :: rest => if cardKeyLt a b then a :: b :: rest else b :: insertCard a rest

/-- Stable sort by `(seriesId, cardCode)`.  This insertion sort is stable,
and a stable sort under a fixed total preorder has a unique result, so it
agrees with Python's stable `cards.sort(key=lambda c: (c.seriesId, c.cardCode))`. -/
def sortCards (l : List CardRow) : List CardRow :=
  l.foldl (fun acc a => insertCard a acc) []

/-- `merge_bundles`: iterate bundles in order, appending each series whose
`id` is unseen and each card whose `(id, cardCode)` is unseen, then sort
the accumulated cards by `(seriesId, cardCode)`. -/
def mergeBundles (bundles : List ExportBundle) : ExportBundle :=
  { series := dedupByKey (fun s => s.id) [] (bundles.map (fun b => b.series)).flatten,
    cards := sortCards
      (dedupByKey (fun c => (c.id, c.cardCode)) [] (bundles.map (fun b => b.cards)).flatten) }

/-! ## JSON model and search pagination (`cardlist_search.py` lines 94-117, 200-234, 479-507) -/

inductive Json where
  | null
  | jbool (b : Bool)
  | jnum (n : Int)
  | jstr (s : String)
  | jarr (items : List Json)
  | jobj (fields : List (String × Json))

mutual

/-- Computable structural size of a JSON value, used as recursion fuel
for the nested-object descent of `_extract_int`. -/
def jsonSize : Json → Nat
  | Json.null => 1
  | Json.jbool _ => 1
  | Json.jnum _ => 1
  | Json.jstr _ => 1
  | Json.jarr l => 1 + jsonSizeL l
  | Json.jobj f => 1 + jsonSizeF f
termination_by j => sizeOf j

def jsonSizeL : List Json → Nat
  | [] => 0
  | j :: rest => jsonSize j + jsonSizeL rest
termination_by l => sizeOf l

def jsonSizeF : List (String × Json) → Nat
  | [] => 0
  | (_, v) :: rest => jsonSize v + jsonSizeF rest
termination_by f => sizeOf f

end

/-- Python `dict.get` on an association list. -/
def lookupJ : List (String × Json) → String → Option Json
  | [], _ => none
  | (k, v) :: rest, key => if k == key then some v else lookupJ rest key

/-- Python truthiness of a JSON value. -/
def jTruthy : Json → Bool
  | Json.null => false
  | Json.jbool b => b
  | Json.jnum n => n != 0
  | Json.jstr s => s != ""
  | Json.jarr l => !l.isEmpty
  | Json.jobj f => !f.isEmpty

/-- Python `x or y` on optional JSON values (`None` and falsy values fall
through to the right operand). -/
def pyOrJ (a b : Option Json) : Option Json :=
  match a with
  | some v => if jTruthy v then some v else b
  | none => b

/-- Inner loop of `_extract_items`: try the candidate keys in order. -/
def extractItemsGo (fields : List (String × Json)) : List String → List Json
  | [] => []
  | key :: rest =>
    match lookupJ fields key with
    | some (Json.jarr l) => l
    | some (Json.jobj inner) =>
      match pyOrJ (lookupJ inner "items") (pyOrJ (lookupJ inner "list") (lookupJ inner "rows")) with
      | some (Json.jarr l) => l
      | _ => extractItemsGo fields rest
    | _ => extractItemsGo fields rest

/-- `_extract_items`: the payload itself if it is a list, else the first
list found under `items|cards|list|data|results` (recursing one level into
`items|list|rows`), else the empty list. -/
def extractItems : Json → List Json
  | Json.jarr l => l
  | Json.jobj fields => extractItemsGo fields ["items", "cards", "list", "data", "results"]
  | _ => []

/-- Python `str.isdigit` (ASCII model). -/
def isDigitsL (l : List Char) : Bool := !l.isEmpty && l.all isAsciiDigit

/-- `int(s)` for a digit string. -/
def digitsToNat (l : List Char) : Nat :=
  l.foldl (fun acc c => acc * 10 + (c.toNat - 48)) 0

/-- `_extract_int`, fuelled: for each key in order, an integer value is
returned directly, a digit string is parsed, and a nested object is
searched recursively with the same key list; anything else falls through
to the next key.  The fuel only bounds the nested-object recursion depth;
`extractInt` below passes `jsonSize j`, which strictly dominates the
nesting depth, so the `0` case is never reached from it. -/
def extractIntGo : Nat → Json → List String → Option Int
  | 0, _, _ => none
  | fuel + 1, Json.jobj fields, keys =>
    keys.findSome? fun k =>
      match lookupJ fields k with
      | some (Json.jnum n) => some n
      | some (Json.jstr s) =>
        if isDigitsL s.data then some (Int.ofNat (digitsToNat s.data)) else none
      | some (Json.jobj inner) => extractIntGo fuel (Json.jobj inner) keys
      | _ => none
  | _ + 1, _, _ => none

/-- `_extract_int(source, keys)`. -/
def extractInt (j : Json) (keys : List String) : Option Int :=
  extractIntGo (jsonSize j) j keys

/-- First boolean value found under the given keys (the
`isinstance(value, bool)` scans of `_has_next_page`). -/
def firstBoolJ (fields : List (String × Json)) : List String → Option Bool
  | [] => none
  | k :: rest =>
    match lookupJ fields k with
    | some (Json.jbool b) => some b
    | _ => firstBoolJ fields rest

/-- `_has_next_page(config, data, page, page_size)`: explicit boolean
flags first, then the `pager` object's flags and max-page, then top-level
max-page keys, then the page-size heuristic with
`per_page = config.per_page or page_size`. -/
def hasNextPage (perPage : Option Nat) (data : Json) (page : Nat) (pageSize : Nat) : Bool :=
  match data with
  | Json.jobj fields =>
    match firstBoolJ fields ["hasNext", "has_next", "next"] with
    | some b => b
    | none =>
      let pagerStep : Option Bool :=
        match lookupJ fields "pager" with
        | some (Json.jobj pager) =>
          match firstBoolJ pager ["hasNext", "has_next"] with
          | some b => some b
          | none =>
            match extractInt (Json.jobj pager)
                ["max", "maxPage", "pageMax", "last", "totalPages"] with
            | some m => some (decide ((page : Int) < m))
            | none => none
        | _ => none
      match pagerStep with
      | some b => b
      | none =>
        match extractInt (Json.jobj fields)
            ["maxPage", "max_page", "total_pages", "page_max"] with
        | some m => decide ((page : Int) < m)
        | none =>
          let pp := match perPage with
            | some n => if n = 0 then pageSize else n
            | none => pageSize
          if pageSize = 0 then false
          else if pp ≠ 0 ∧ pageSize < pp then false
          else true
  | _ => false

/-- The `while page <= 200` loop of `_fetch_cards_for_set`, with the page
responses abstracted as `backend : page ↦ decoded JSON` and the number of
issued requests counted.  The fuel starts at 200, so the loop body runs
for pages 1..200 at most. -/
def fetchCardsGo (perPage : Option Nat) (backend : Nat → Json) :
    Nat → Nat → List Json → Option Int → Nat → List Json × Nat
  | 0, _, results, _, reqs => (results, reqs)
  | fuel + 1, page, results, expTotal, reqs =>
    let data := backend page
    let reqs := reqs + 1
    let items := extractItems data
    if items.isEmpty then (results, reqs)
    else
      let results := results ++ items
      let expTotal := match expTotal with
        | none => extractInt data ["total", "total_count", "totalCount", "count"]
        | some t => some t
      match expTotal with
      | some t =>
        if t ≤ (results.length : Int) then (results, reqs)
        else if hasNextPage perPage data page items.length then
          fetchCardsGo perPage backend fuel (page + 1) results (some t) reqs
        else (results, reqs)
      | none =>
        if hasNextPage perPage data page items.length then
          fetchCardsGo perPage backend fuel (page + 1) results none reqs
        else (results, reqs)

/-- `_fetch_cards_for_set`: run the pagination loop from page 1. -/
def fetchCardsForSet (perPage : Option Nat) (backend : Nat → Json) : List Json × Nat :=
  fetchCardsGo perPage backend 200 1 [] none 0

/-- `fetch_cards`: raise `CardSearchError` when no cards were returned,
else hand back the accumulated cards (with the request count recorded). -/
def fetchCards (perPage : Option Nat) (backend : Nat → Json) :
    Except String (List Json × Nat) :=
  let r := fetchCardsForSet perPage backend
  if r.1.isEmpty then Except.error "No cards returned for set" else Except.ok r

/-! ## Detail-page fetcher state machine
(`card_page.py` lines 34-72; `download_official_cards.py` lines 49-50,
154-179, 197-209, 219-221, 302-344) -/

/-- Data extracted from a card detail page (`CardPageDetails`). -/
structure PageDetails where
  title : Option String
  effect : Option String
  imageUrl : Option String

/-- The memoization cache of one `CardPageFetcher` object, keyed by
`(card_code, language)`. -/
abbrev FetchCache := List ((String × String) × PageDetails)

/-- The module-global `_CARD_PAGE_FETCHER` slot: unset, a live fetcher
object (with its cache), or the `_CARD_PAGE_FETCHER_FAILED` sentinel. -/
inductive PFState where
  | uninit
  | ready (cache : FetchCache)
  | failed

/-- `_ensure_card_page_fetcher`: reuse a live fetcher; raise
`CardPageFetchError` (`none`) when the sentinel is cached; otherwise
construct a fresh fetcher (construction builds an opener only and cannot
raise `CardPageFetchError`). -/
def ensureCardPageFetcher : PFState → PFState × Option FetchCache
  | PFState.uninit => (PFState.ready [], some [])
  | PFState.ready c => (PFState.ready c, some c)
  | PFState.failed => (PFState.failed, none)

/-- One `CardPageFetcher.fetch` call against the network oracle
(`oracle code lang = none` models a raised `CardPageFetchError`, from an
HTTP error or an unparsable page): a cache hit returns without a network
request; a miss issues one, and only successes are cached.  Returns the
new cache, whether a detail-page request was issued, and the outcome. -/
def fetcherFetch (oracle : String → String → Option PageDetails)
    (c : FetchCache) (code lang : String) :
    FetchCache × Bool × Option PageDetails :=
  match c.find? (fun e => e.1.1 == code && e.1.2 == lang) with
  | some e => (c, false, some e.2)
  | none =>
    match oracle code lang with
    | none => (c, true, none)
    | some d => (((code, lang), d) :: c, true, some d)

/-- The card loop of `fetch_from_search` (lines 166-176), restricted to
the detail-enrichment slice of `build_card_row` (lines 324-344): every
card is built with the same local fetcher object; a `CardPageFetchError`
sets the module-global sentinel (`dis`), leaves the card unenriched, and
the loop continues.  Returns the final cache, the disable flag, the built
cards as `(code, enriched)` pairs, and the codes for which a detail-page
request was issued. -/
def fetchLoop (oracle : String → String → Option PageDetails) (lang : String) :
    FetchCache → Bool → List String →
      FetchCache × Bool × List (String × Bool) × List String
  | c, dis, [] => (c, dis, [], [])
  | c, dis, code :: rest =>
    match fetcherFetch oracle c code lang with
    | (c2, att, res) =>
      let dis2 := dis || res.isNone
      let (cf, disf, cards, atts) := fetchLoop oracle lang c2 dis2 rest
      (cf, disf, (code, res.isSome) :: cards, if att then code :: atts else atts)

/-- `fetch_from_search`, detail-enrichment view: obtain the fetcher from
the global slot (its `CardPageFetchError` propagates and is caught by
`load_set_bundle` as a generic error), build every card of the catalog,
and store back the sentinel when any structural failure occurred (the
global slot aliases the local fetcher object otherwise).  An empty card
list raises `CardSearchError` (also `Except.error`). -/
def fetchFromSearchDetail (oracle : String → String → Option PageDetails)
    (lang : String) (g : PFState) (codes : List String) :
    PFState × Except Unit (List (String × Bool)) × List String :=
  match ensureCardPageFetcher g with
  | (g1, none) => (g1, Except.error (), [])
  | (_, some c) =>
    match fetchLoop oracle lang c false codes with
    | (cf, disf, cards, atts) =>
      let g2 := if disf then PFState.failed else PFState.ready cf
      if cards.isEmpty then (g2, Except.error (), atts)
      else (g2, Except.ok cards, atts)

/-- `load_set_bundle`, detail-enrichment view: try the search tier; on any
error fall back to the export/offline tiers, which call `build_card_row`
without a detail fetcher, so they build the catalog's rows unenriched and
never issue a detail-page request. -/
def loadSetBundleDetail (oracle : String → String → Option PageDetails)
    (lang : String) (g : PFState) (codes : List String) :
    PFState × List (String × Bool) × List String :=
  match fetchFromSearchDetail oracle lang g codes with
  | (g2, Except.ok cards, atts) => (g2, cards, atts)
  | (g2, Except.error _, atts) => (g2, codes.map (fun c => (c, false)), atts)

/-- A pipeline run over the requested catalogs, threading the
module-global fetcher slot and collecting each catalog's built cards and
attempted detail requests. -/
def runDetail (oracle : String → String → Option PageDetails) (lang : String) :
    PFState → List (List String) →
      PFState × List (List (String × Bool) × List String)
  | g, [] => (g, [])
  | g, cat :: rest =>
    match loadSetBundleDetail oracle lang g cat with
    | (g2, cards, atts) =>
      let (gf, outs) := runDetail oracle lang g2 rest
      (gf, (cards, atts) :: outs)

/-- A structurally failing detail page (layout changed, nothing parsable):
every fetch raises `CardPageFetchError`. -/
def alwaysFailOracle : String → String → Option PageDetails := fun _ _ => none

/-! # Theorems -/

/-! ## C2: rarity normalisation -/

/-- Every value of the fixed table is in `{C, U, R, SR, SP}`. -/
theorem rarity_table_values (p : String × String) (hp : p ∈ RARITY_NORMALISATION) :
    p.2 ∈ (["C", "U", "R", "SR", "SP"] : List String) := by
  simp only [RARITY_NORMALISATION, List.mem_cons, List.not_mem_nil, or_false] at hp
  rcases hp with rfl | rfl | rfl | rfl | rfl | rfl | rfl | rfl | rfl <;> decide

/-- `normaliseRarity` always lands in the fixed enumeration. -/
theorem normaliseRarity_mem (w : Option String) :
    normaliseRarity w ∈ (["C", "U", "R", "SR", "SP"] : List String) := by
  match w with
  | none => decide
  | some v =>
    by_cases hv : v = ""
    · simp [normaliseRarity, hv]
    · simp only [normaliseRarity, hv, if_neg hv]
      cases hfind : RARITY_NORMALISATION.find? (fun p => p.1 == pyUpper (pyStrip v)) with
      | none => decide
      | some p =>
        have hp := List.mem_of_find?_eq_some hfind
        exact rarity_table_values p hp

/-- C2: `normalise_rarity` is pure and total with range `{C, U, R, SR, SP}`;
the nine known labels map through the fixed table; every unrecognized
non-empty label maps to `R`; empty or missing labels map to `C`. -/
theorem c2_normalise_rarity (v : String) (hne : v ≠ "")
    (hunrec : RARITY_NORMALISATION.find? (fun p => p.1 == pyUpper (pyStrip v)) = none) :
    (∀ w : Option String, normaliseRarity w ∈ (["C", "U", "R", "SR", "SP"] : List String)) ∧
    normaliseRarity (some "C") = "C" ∧ normaliseRarity (some "U") = "U" ∧
    normaliseRarity (some "R") = "R" ∧ normaliseRarity (some "SR") = "SR" ∧
    normaliseRarity (some "RR") = "SR" ∧ normaliseRarity (some "RRR") = "SP" ∧
    normaliseRarity (some "SEC") = "SP" ∧ normaliseRarity (some "SP") = "SP" ∧
    normaliseRarity (some "SSP") = "SP" ∧
    normaliseRarity (some v) = "R" ∧
    normaliseRarity none = "C" ∧ normaliseRarity (some "") = "C" := by
  refine ⟨normaliseRarity_mem, by decide, by decide, by decide, by decide, by decide,
    by decide, by decide, by decide, by decide, ?_, by decide, by decide⟩
  simp [normaliseRarity, hne, hunrec]

/-- Witness for C2 at the unrecognized non-empty label `"XYZ"`. -/
theorem c2_normalise_rarity_witness :
    normaliseRarity (some "XYZ") = "R" ∧ normaliseRarity none = "C" := by
  have h := c2_normalise_rarity "XYZ" (by decide) (by decide)
  exact ⟨h.2.2.2.2.2.2.2.2.2.2.1, h.2.2.2.2.2.2.2.2.2.2.2.1⟩

/-! ## C8: `load_offline_bundle` passes a keyword `CardRow` does not accept -/

/-- C8: the `CardRow(...)` call in `load_offline_bundle` passes the keyword
`effect`, which is not a field of the `CardRow` dataclass declared in
`import_cards.py`; the call is therefore rejected (`TypeError`) for every
offline snapshot containing at least one card, so the claimed
one-series/one-card bundle is never produced. -/
theorem c8_offline_cardrow_effect_kwarg :
    dataclassCallAccepted cardRowFields loadOfflineCardKwargs = false ∧
    "effect" ∈ loadOfflineCardKwargs ∧ "effect" ∉ cardRowFields := by
  decide

/-! ## C10: failed search-client construction is cached for the whole run -/

/-- C10: once `CardSearchClient` construction fails with a
`CardSearchError` (configuration discovery error), the failure is cached in
the module-global state, and every later `_ensure_search_client` call
raises `CardSearchError` immediately without re-attempting discovery. -/
theorem c10_search_client_failure_cached (ctor : CtorOutcome) (ctors : List CtorOutcome) :
    ensureSearchClient CtorOutcome.searchErr SCState.uninit
      = (SCState.failed, true, SCResult.raisedSearchError) ∧
    ensureSearchClient ctor SCState.failed
      = (SCState.failed, false, SCResult.raisedSearchError) ∧
    (searchClientCalls ctors SCState.failed).1 = SCState.failed ∧
    (searchClientCalls ctors SCState.failed).2.all
      (fun e => !e.1 && e.2 == SCResult.raisedSearchError) = true := by
  refine ⟨rfl, by cases ctor <;> rfl, ?_, ?_⟩ <;>
  · induction ctors with
    | nil => rfl
    | cons c rest ih => simpa [searchClientCalls, ensureSearchClient] using ih

/-! ## List lemmas for the slugging machinery -/

theorem listStartsWith_append_of (pre l1 l2 : List Char)
    (h : listStartsWith pre l1 = true) : listStartsWith pre (l1 ++ l2) = true := by
  induction pre generalizing l1 with
  | nil => rfl
  | cons a as ih =>
    cases l1 with
    | nil => exact absurd h (by simp [listStartsWith])
    | cons b bs =>
      simp only [listStartsWith, Bool.and_eq_true] at h
      simp only [List.cons_append, listStartsWith, Bool.and_eq_true]
      exact ⟨h.1, ih bs h.2⟩

theorem listStartsWith_shift (p1 p2 l : List Char) :
    listStartsWith (p1 ++ p2) (p1 ++ l) = listStartsWith p2 l := by
  induction p1 with
  | nil => rfl
  | cons a as ih => simp [listStartsWith, ih]

theorem listStartsWith_cons_elim {a : Char} {as l : List Char}
    (h : listStartsWith (a :: as) l = true) :
    ∃ tl, l = a :: tl ∧ listStartsWith as tl = true := by
  cases l with
  | nil => exact absurd h (by simp [listStartsWith])
  | cons b bs =>
    simp only [listStartsWith, Bool.and_eq_true, beq_iff_eq] at h
    exact ⟨bs, by rw [h.1], h.2⟩

theorem dropWhile_head_not {P : Char → Bool} :
    ∀ (l : List Char) (c : Char), (l.dropWhile P).head? = some c → P c = false := by
  intro l
  induction l with
  | nil => intro c h; cases h
  | cons a rest ih =>
    intro c h
    rw [List.dropWhile_cons] at h
    by_cases hp : P a = true
    · rw [if_pos hp] at h
      exact ih c h
    · rw [if_neg hp] at h
      simp only [List.head?_cons, Option.some.injEq] at h
      subst h
      exact Bool.eq_false_iff.mpr hp

theorem dropWhile_id_of_head {P : Char → Bool} :
    ∀ l : List Char, (∀ c, l.head? = some c → P c = false) → l.dropWhile P = l := by
  intro l h
  cases l with
  | nil => rfl
  | cons a rest =>
    have ha : P a = false := h a rfl
    rw [List.dropWhile_cons, if_neg (by simp [ha])]

theorem dropWhile_chain' {R : Char → Char → Prop} {P : Char → Bool} :
    ∀ l : List Char, l.Chain' R → (l.dropWhile P).Chain' R := by
  intro l
  induction l with
  | nil => intro h; exact h
  | cons a rest ih =>
    intro h
    rw [List.dropWhile_cons]
    by_cases hp : P a = true
    · rw [if_pos hp]
      exact ih h.tail
    · rw [if_neg hp]
      exact h

theorem dropTrail_subset {P : Char → Bool} :
    ∀ (l : List Char) (c : Char), c ∈ dropTrail P l → c ∈ l := by
  intro l
  induction l with
  | nil => intro c h; cases h
  | cons a rest ih =>
    intro c h
    rw [dropTrail] at h
    by_cases hc : ((dropTrail P rest).isEmpty && P a) = true
    · rw [if_pos hc] at h; cases h
    · rw [if_neg hc] at h
      rcases List.mem_cons.mp h with rfl | h
      · exact List.mem_cons_self _ _
      · exact List.mem_cons_of_mem _ (ih c h)

theorem dropTrail_head {P : Char → Bool} :
    ∀ (l : List Char) (c : Char), (dropTrail P l).head? = some c → l.head? = some c := by
  intro l
  induction l with
  | nil => intro c h; cases h
  | cons a rest _ =>
    intro c h
    rw [dropTrail] at h
    by_cases hc : ((dropTrail P rest).isEmpty && P a) = true
    · rw [if_pos hc] at h; cases h
    · rw [if_neg hc] at h
      simpa using h

theorem dropTrail_getLast {P : Char → Bool} :
    ∀ (l : List Char) (c : Char), (dropTrail P l).getLast? = some c → P c = false := by
  intro l
  induction l with
  | nil => intro c h; cases h
  | cons a rest ih =>
    intro c h
    rw [dropTrail] at h
    by_cases hc : ((dropTrail P rest).isEmpty && P a) = true
    · rw [if_pos hc] at h; cases h
    · rw [if_neg hc] at h
      cases hr : dropTrail P rest with
      | nil =>
        rw [hr] at h
        simp only [List.getLast?_singleton, Option.some.injEq] at h
        subst h
        have : P a ≠ true := by
          intro hpa
          exact hc (by simp [hr, hpa])
        exact Bool.eq_false_iff.mpr this
      | cons b t =>
        rw [hr, List.getLast?_cons_cons] at h
        exact ih c (hr ▸ h)

theorem dropTrail_chain' {R : Char → Char → Prop} {P : Char → Bool} :
    ∀ l : List Char, l.Chain' R → (dropTrail P l).Chain' R := by
  intro l
  induction l with
  | nil => intro h; exact h
  | cons a rest ih =>
    intro h
    rw [dropTrail]
    by_cases hc : ((dropTrail P rest).isEmpty && P a) = true
    · rw [if_pos hc]; exact List.chain'_nil
    · rw [if_neg hc]
      rw [List.chain'_cons']
      refine ⟨fun y hy => ?_, ih h.tail⟩
      have := dropTrail_head rest y hy
      exact (List.chain'_cons'.mp h).1 y this

theorem dropTrail_id_of_getLast {P : Char → Bool} :
    ∀ l : List Char, (∀ c, l.getLast? = some c → P c = false) → dropTrail P l = l := by
  intro l
  induction l with
  | nil => intro _; rfl
  | cons a rest ih =>
    intro h
    rw [dropTrail]
    cases rest with
    | nil =>
      have ha : P a = false := h a rfl
      rw [if_neg (by simp [dropTrail, ha])]
      rfl
    | cons b t =>
      have hrest : dropTrail P (b :: t) = b :: t := by
        refine ih fun c hc => h c ?_
        rw [List.getLast?_cons_cons]
        exact hc
      rw [if_neg (by simp [hrest])]
      rw [hrest]

theorem collapseRuns_chars {p : Char → Bool} {sep : Char} :
    ∀ (l : List Char) (b : Bool) (c : Char),
      c ∈ collapseRuns p sep b l → c = sep ∨ p c = false := by
  intro l
  induction l with
  | nil => intro b c h; cases h
  | cons a rest ih =>
    intro b c h
    by_cases hp : p a = true
    · cases b with
      | true =>
        rw [collapseRuns, if_pos hp, if_pos rfl] at h
        exact ih true c h
      | false =>
        rw [collapseRuns, if_pos hp] at h
        simp only [Bool.false_eq_true, if_false] at h
        rcases List.mem_cons.mp h with rfl | h
        · exact Or.inl rfl
        · exact ih true c h
    · rw [collapseRuns, if_neg hp] at h
      rcases List.mem_cons.mp h with rfl | h
      · exact Or.inr (Bool.eq_false_iff.mpr hp)
      · exact ih false c h

theorem collapseRuns_true_head {p : Char → Bool} {sep : Char} :
    ∀ (l : List Char) (c : Char),
      (collapseRuns p sep true l).head? = some c → p c = false := by
  intro l
  induction l with
  | nil => intro c h; cases h
  | cons a rest ih =>
    intro c h
    by_cases hp : p a = true
    · rw [collapseRuns, if_pos hp, if_pos rfl] at h
      exact ih c h
    · rw [collapseRuns, if_neg hp] at h
      simp only [List.head?_cons, Option.some.injEq] at h
      subst h
      exact Bool.eq_false_iff.mpr hp

theorem collapseRuns_chain' {p : Char → Bool} {sep : Char} (hsep : p sep = true) :
    ∀ (l : List Char) (b : Bool),
      (collapseRuns p sep b l).Chain' (fun x y => ¬(x = sep ∧ y = sep)) := by
  intro l
  induction l with
  | nil => intro b; exact List.chain'_nil
  | cons a rest ih =>
    intro b
    by_cases hp : p a = true
    · cases b with
      | true =>
        rw [collapseRuns, if_pos hp, if_pos rfl]
        exact ih true
      | false =>
        rw [collapseRuns, if_pos hp]
        simp only [Bool.false_eq_true, if_false]
        rw [List.chain'_cons']
        refine ⟨fun y hy => ?_, ih true⟩
        intro ⟨_, hy2⟩
        have := collapseRuns_true_head rest y hy
        rw [hy2] at this
        rw [hsep] at this
        cases this
    · rw [collapseRuns, if_neg hp]
      rw [List.chain'_cons']
      refine ⟨fun y hy => ?_, ih false⟩
      intro ⟨ha2, _⟩
      rw [ha2] at hp
      exact hp hsep

theorem collapseRuns_fixed {p : Char → Bool} {sep : Char} (hsep : p sep = true) :
    ∀ (n : Nat) (l : List Char), l.length ≤ n →
      (∀ c ∈ l, c = sep ∨ p c = false) →
      l.Chain' (fun x y => ¬(x = sep ∧ y = sep)) →
      (∀ c, l.head? = some c → c ≠ sep) →
      ∀ b, collapseRuns p sep b l = l := by
  intro n
  induction n with
  | zero =>
    intro l hlen _ _ _ b
    have : l = [] := List.eq_nil_of_length_eq_zero (Nat.le_zero.mp hlen)
    subst this
    rfl
  | succ n ih =>
    intro l hlen hchar hchain hhead b
    cases l with
    | nil => rfl
    | cons a rest =>
      have hane : a ≠ sep := hhead a rfl
      have ha : p a = false := by
        rcases hchar a (List.mem_cons_self _ _) with h | h
        · exact absurd h hane
        · exact h
      rw [collapseRuns, if_neg (by simp [ha])]
      congr 1
      cases rest with
      | nil => rfl
      | cons b' t =>
        by_cases hb' : b' = sep
        · subst hb'
          rw [collapseRuns, if_pos hsep]
          simp only [Bool.false_eq_true, if_false]
          congr 1
          refine ih t ?_ ?_ ?_ ?_ true
          · simp only [List.length_cons] at hlen
            omega
          · intro c hc
            exact hchar c (List.mem_cons_of_mem _ (List.mem_cons_of_mem _ hc))
          · exact hchain.tail.tail
          · intro c hc hceq
            have h2 := (List.chain'_cons'.mp hchain.tail).1 c (hc ▸ rfl)
            exact h2 ⟨rfl, hceq⟩
        · refine ih (b' :: t) ?_ ?_ ?_ ?_ false
          · simp only [List.length_cons] at hlen ⊢
            omega
          · intro c hc
            exact hchar c (List.mem_cons_of_mem _ hc)
          · exact hchain.tail
          · intro c hc
            simp only [List.head?_cons, Option.some.injEq] at hc
            subst hc
            exact hb'

/-! ## Composed facts about `stripCharL` and the hyphen slug -/

theorem stripCharL_subset (sep : Char) (l : List Char) (c : Char)
    (h : c ∈ stripCharL sep l) : c ∈ l :=
  (List.dropWhile_sublist _).subset (dropTrail_subset _ c h)

theorem stripCharL_head_ne (sep : Char) (l : List Char) (c : Char)
    (h : (stripCharL sep l).head? = some c) : c ≠ sep := by
  have h2 := dropTrail_head _ c h
  have h3 := dropWhile_head_not _ c h2
  exact fun he => by simp [he] at h3

theorem stripCharL_getLast_ne (sep : Char) (l : List Char) (c : Char)
    (h : (stripCharL sep l).getLast? = some c) : c ≠ sep := by
  have h2 := dropTrail_getLast _ c h
  exact fun he => by simp [he] at h2

theorem stripCharL_chain' {R : Char → Char → Prop} (sep : Char) (l : List Char)
    (h : l.Chain' R) : (stripCharL sep l).Chain' R :=
  dropTrail_chain' _ (dropWhile_chain' _ h)

theorem stripCharL_id (sep : Char) (l : List Char)
    (hh : ∀ c, l.head? = some c → c ≠ sep)
    (hl : ∀ c, l.getLast? = some c → c ≠ sep) : stripCharL sep l = l := by
  unfold stripCharL
  have hdw : l.dropWhile (· == sep) = l :=
    dropWhile_id_of_head l fun c hc => by
      simpa using hh c hc
  rw [hdw]
  exact dropTrail_id_of_getLast l fun c hc => by simpa using hl c hc

theorem collapseRuns_any {p : Char → Bool} {sep : Char} :
    ∀ (l : List Char) (b : Bool), (∃ c ∈ l, p c = false) →
      ∃ c ∈ collapseRuns p sep b l, p c = false := by
  intro l
  induction l with
  | nil => intro b ⟨c0, hc0, _⟩; cases hc0
  | cons a rest ih =>
    intro b ⟨c0, hc0, hpc0⟩
    by_cases hp : p a = true
    · have hc0r : c0 ∈ rest := by
        rcases List.mem_cons.mp hc0 with rfl | h
        · rw [hpc0] at hp; cases hp
        · exact h
      obtain ⟨c1, hc1, hpc1⟩ := ih true ⟨c0, hc0r, hpc0⟩
      cases b with
      | true =>
        rw [collapseRuns, if_pos hp, if_pos rfl]
        exact ⟨c1, hc1, hpc1⟩
      | false =>
        rw [collapseRuns, if_pos hp]
        simp only [Bool.false_eq_true, if_false]
        exact ⟨c1, List.mem_cons_of_mem _ hc1, hpc1⟩
    · rw [collapseRuns, if_neg hp]
      exact ⟨a, List.mem_cons_self _ _, Bool.eq_false_iff.mpr hp⟩

theorem dropWhile_any {P p : Char → Bool} (hPp : ∀ c, P c = true → p c = true) :
    ∀ l : List Char, (∃ c ∈ l, p c = false) →
      ∃ c ∈ l.dropWhile P, p c = false := by
  intro l
  induction l with
  | nil => intro ⟨c0, hc0, _⟩; cases hc0
  | cons a rest ih =>
    intro ⟨c0, hc0, hpc0⟩
    rw [List.dropWhile_cons]
    by_cases hP : P a = true
    · rw [if_pos (by simp [hP])]
      have hc0r : c0 ∈ rest := by
        rcases List.mem_cons.mp hc0 with rfl | h
        · rw [hPp c0 hP] at hpc0; cases hpc0
        · exact h
      exact ih ⟨c0, hc0r, hpc0⟩
    · rw [if_neg (by simp [hP])]
      exact ⟨c0, hc0, hpc0⟩

theorem dropTrail_any {P p : Char → Bool} (hPp : ∀ c, P c = true → p c = true) :
    ∀ l : List Char, (∃ c ∈ l, p c = false) →
      ∃ c ∈ dropTrail P l, p c = false := by
  intro l
  induction l with
  | nil => intro ⟨c0, hc0, _⟩; cases hc0
  | cons a rest ih =>
    intro ⟨c0, hc0, hpc0⟩
    rw [dropTrail]
    by_cases hcond : ((dropTrail P rest).isEmpty && P a) = true
    · exfalso
      simp only [Bool.and_eq_true, List.isEmpty_iff] at hcond
      rcases List.mem_cons.mp hc0 with rfl | h
      · rw [hPp c0 hcond.2] at hpc0; cases hpc0
      · obtain ⟨c1, hc1, _⟩ := ih ⟨c0, h, hpc0⟩
        rw [hcond.1] at hc1
        cases hc1
    · rw [if_neg hcond]
      rcases List.mem_cons.mp hc0 with rfl | h
      · exact ⟨c0, List.mem_cons_self _ _, hpc0⟩
      · obtain ⟨c1, hc1, hpc1⟩ := ih ⟨c0, h, hpc0⟩
        exact ⟨c1, List.mem_cons_of_mem _ hc1, hpc1⟩

theorem stripCharL_any {p : Char → Bool} (sep : Char) (hsep : p sep = true) :
    ∀ l : List Char, (∃ c ∈ l, p c = false) →
      ∃ c ∈ stripCharL sep l, p c = false := by
  intro l hl
  unfold stripCharL
  refine dropTrail_any ?_ _ (dropWhile_any ?_ l hl) <;>
  · intro c hc
    rw [beq_iff_eq] at hc
    subst hc
    exact hsep

theorem listMapIdOf (f : Char → Char) :
    ∀ l : List Char, (∀ c ∈ l, f c = c) → l.map f = l := by
  intro l
  induction l with
  | nil => intro _; rfl
  | cons a rest ih =>
    intro h
    rw [List.map_cons, h a (List.mem_cons_self _ _), ih fun c hc => h c (List.mem_cons_of_mem _ hc)]

theorem pyCharLower_fixed (c : Char) (h : c = '-' ∨ isLowerAlnum c = true) :
    pyCharLower c = c := by
  rcases h with rfl | h
  · decide
  · simp only [isLowerAlnum, Bool.or_eq_true, Bool.and_eq_true, decide_eq_true_eq] at h
    rw [pyCharLower, if_neg (by omega)]

theorem string_mk_data (s : String) : String.mk s.data = s := rfl

theorem slug_data (x : String) :
    (slugifyCardCode x).data =
      stripCharL '-' (collapseRuns (fun c => !isLowerAlnum c) '-' false
        (x.data.map pyCharLower)) := rfl

theorem slug_charset (x : String) :
    ∀ c ∈ (slugifyCardCode x).data, c = '-' ∨ isLowerAlnum c = true := by
  intro c hc
  rw [slug_data] at hc
  rcases collapseRuns_chars _ _ c (stripCharL_subset _ _ c hc) with h | h
  · exact Or.inl h
  · exact Or.inr (by simpa using h)

theorem slug_head_ne (x : String) :
    ∀ c, (slugifyCardCode x).data.head? = some c → c ≠ '-' := by
  intro c hc
  rw [slug_data] at hc
  exact stripCharL_head_ne _ _ c hc

theorem slug_getLast_ne (x : String) :
    ∀ c, (slugifyCardCode x).data.getLast? = some c → c ≠ '-' := by
  intro c hc
  rw [slug_data] at hc
  exact stripCharL_getLast_ne _ _ c hc

theorem slug_chain' (x : String) :
    (slugifyCardCode x).data.Chain' (fun a b => ¬(a = '-' ∧ b = '-')) := by
  rw [slug_data]
  exact stripCharL_chain' _ _ (collapseRuns_chain' (by decide) _ _)

theorem slug_idem (x : String) :
    slugifyCardCode (slugifyCardCode x) = slugifyCardCode x := by
  have hmap : (slugifyCardCode x).data.map pyCharLower = (slugifyCardCode x).data :=
    listMapIdOf _ _ fun c hc => pyCharLower_fixed c (slug_charset x c hc)
  have hchar : ∀ c ∈ (slugifyCardCode x).data,
      c = '-' ∨ (fun c => !isLowerAlnum c) c = false := by
    intro c hc
    rcases slug_charset x c hc with h | h
    · exact Or.inl h
    · exact Or.inr (by simpa using h)
  have hcol : collapseRuns (fun c => !isLowerAlnum c) '-' false (slugifyCardCode x).data
      = (slugifyCardCode x).data :=
    collapseRuns_fixed (by decide) (slugifyCardCode x).data.length _ le_rfl hchar
      (slug_chain' x) (slug_head_ne x) false
  have hstrip : stripCharL '-' (slugifyCardCode x).data = (slugifyCardCode x).data :=
    stripCharL_id '-' _ (slug_head_ne x) (slug_getLast_ne x)
  show String.mk (stripCharL '-' (collapseRuns (fun c => !isLowerAlnum c) '-' false
    ((slugifyCardCode x).data.map pyCharLower))) = slugifyCardCode x
  rw [hmap, hcol, hstrip]

theorem slug_nonempty (x : String)
    (h : x.data.any (fun c => isLowerAlnum (pyCharLower c)) = true) :
    slugifyCardCode x ≠ "" := by
  obtain ⟨c0, hc0, hl⟩ := List.any_eq_true.mp h
  have hw : ∃ c ∈ x.data.map pyCharLower, (fun c => !isLowerAlnum c) c = false :=
    ⟨pyCharLower c0, List.mem_map_of_mem _ hc0, by simpa using hl⟩
  have hw2 := @collapseRuns_any (fun c => !isLowerAlnum c) '-' _ false hw
  have hw3 := stripCharL_any '-' (by decide) _ hw2
  obtain ⟨c1, hc1, _⟩ := hw3
  intro he
  have : (slugifyCardCode x).data = [] := by rw [he]
  rw [slug_data] at this
  rw [this] at hc1
  cases hc1

/-! ## C4: slugging -/

/-- C4 counterexample: on the input `"/"` both slugging functions return
the empty string, contradicting the claim that they always yield a
non-empty string. -/
theorem c4_slug_counterexample :
    slugifyCardCode "/" = "" ∧ slugifySeriesId "/" = "" := by decide

/-- C4 (amended): both hyphen slugging functions coincide and are
idempotent; the output consists only of lower-case ASCII alphanumerics and
hyphens, with no leading and no trailing hyphen; the output is non-empty
whenever the input contains a character that lower-cases to an ASCII
alphanumeric (but the empty output does occur for inputs without such a
character, e.g. `"/"`). -/
theorem c4_slug_amended (x : String) :
    slugifyCardCode (slugifyCardCode x) = slugifyCardCode x ∧
    slugifySeriesId x = slugifyCardCode x ∧
    (∀ c ∈ (slugifyCardCode x).data, c = '-' ∨ isLowerAlnum c = true) ∧
    (∀ c, (slugifyCardCode x).data.head? = some c → c ≠ '-') ∧
    (∀ c, (slugifyCardCode x).data.getLast? = some c → c ≠ '-') ∧
    (x.data.any (fun c => isLowerAlnum (pyCharLower c)) = true →
      slugifyCardCode x ≠ "") :=
  ⟨slug_idem x, rfl, slug_charset x, slug_head_ne x, slug_getLast_ne x,
    slug_nonempty x⟩

/-- Witness for C4 at the concrete card code `"DDD/S97-001"`. -/
theorem c4_slug_witness :
    slugifyCardCode "DDD/S97-001" ≠ "" ∧
    slugifyCardCode (slugifyCardCode "DDD/S97-001") = slugifyCardCode "DDD/S97-001" :=
  ⟨(c4_slug_amended "DDD/S97-001").2.2.2.2.2 (by decide),
    (c4_slug_amended "DDD/S97-001").1⟩

/-! ## C3 lemmas: URL scheme facts -/

theorem pyStartsWith_of_data_append (base rest : List Char) (pre s : String)
    (hs : s.data = base ++ rest) (hb : listStartsWith pre.data base = true) :
    pyStartsWith s pre = true := by
  unfold pyStartsWith
  rw [hs]
  exact listStartsWith_append_of _ _ _ hb

theorem buildDefaultImageUrl_https (code sc : String) :
    pyStartsWith (buildDefaultImageUrl code sc) "https://" = true := by
  refine pyStartsWith_of_data_append
    ("https://ws-tcg.com/wordpress/wp-content/images/cardlist/" : String).data
    (((if slugifySetCodeU sc = "" then "card" else firstAlpha (slugifySetCodeU sc)) ++ "/" ++
      slugifySetCodeU sc ++ "/" ++ slugifyCardCodeU code ++ ".png").data)
    _ _ ?_ (by decide)
  unfold buildDefaultImageUrl
  simp only [String.data_append, List.append_assoc]

theorem startsWith_https_concat (t : String) (h : pyStartsWith t "//" = true) :
    pyStartsWith ("https:" ++ t) "https://" = true := by
  unfold pyStartsWith at h ⊢
  rw [String.data_append]
  have he : ("https://" : String).data = ("https:" : String).data ++ ("//" : String).data := by
    decide
  rw [he, listStartsWith_shift]
  exact h

theorem not_startsWith_slashslash {t : String} {c : Char} {cs : List Char}
    (h : listStartsWith (c :: cs) t.data = true) (hc : c ≠ '/') :
    pyStartsWith t "//" = false := by
  obtain ⟨tl, ht, _⟩ := listStartsWith_cons_elim h
  unfold pyStartsWith
  rw [ht]
  show listStartsWith ['/', '/'] (c :: tl) = false
  have hb : (('/' : Char) == c) = false := beq_eq_false_iff_ne.mpr (Ne.symm hc)
  simp [listStartsWith, hb]

theorem http_not_slashslash (t : String) (h : pyStartsWith t "http://" = true) :
    pyStartsWith t "//" = false := by
  have h' : listStartsWith ('h' :: ['t', 't', 'p', ':', '/', '/']) t.data = true := h
  exact not_startsWith_slashslash h' (by decide)

theorem https_not_slashslash (t : String) (h : pyStartsWith t "https://" = true) :
    pyStartsWith t "//" = false := by
  have h' : listStartsWith ('h' :: ['t', 't', 'p', 's', ':', '/', '/']) t.data = true := h
  exact not_startsWith_slashslash h' (by decide)

theorem empty_not_startsWith_http : pyStartsWith "" "http://" = false := by decide

theorem empty_not_startsWith_https : pyStartsWith "" "https://" = false := by decide

theorem empty_not_startsWith_slashslash : pyStartsWith "" "//" = false := by decide

/-! ## C3: image URL normalisation -/

/-- C3 counterexample: an absolute `http://` URL that does not match the
canonical image path is passed through unchanged, so the result's scheme
is `http`, not `https`, contradicting the claim. -/
theorem c3_image_url_counterexample :
    normaliseImageUrl (some "http://example.com/card.png") "DDD/S97-001" "DDD/S97"
      = "http://example.com/card.png" ∧
    pyStartsWith "http://example.com/card.png" "https://" = false := by
  constructor
  · rfl
  · decide

/-- C3 (amended): the result is always an absolute URL whose scheme is
`http` or `https`; for missing, empty, protocol-relative and absolute
`https` inputs the scheme is `https`; an absolute `http` input containing
`/cardlist/cardimages/` is replaced by the canonical `https` URL, while
any other absolute `http` input is passed through unchanged and keeps the
`http` scheme. -/
theorem c3_image_url_amended (u : Option String) (code sc : String) :
    (pyStartsWith (normaliseImageUrl u code sc) "https://" = true ∨
     pyStartsWith (normaliseImageUrl u code sc) "http://" = true) ∧
    normaliseImageUrl none code sc = buildDefaultImageUrl code sc ∧
    (∀ s, u = some s → pyStrip s = "" →
      normaliseImageUrl u code sc = buildDefaultImageUrl code sc) ∧
    (∀ s, u = some s → pyStartsWith (pyStrip s) "https://" = true →
      pyStartsWith (normaliseImageUrl u code sc) "https://" = true) ∧
    (∀ s, u = some s → pyStartsWith (pyStrip s) "//" = true →
      pyStartsWith (normaliseImageUrl u code sc) "https://" = true) ∧
    (∀ s, u = some s → pyStartsWith (pyStrip s) "http://" = true →
      pyContains (pyStrip s) "/cardlist/cardimages/" = false →
      normaliseImageUrl u code sc = pyStrip s) ∧
    (∀ s, u = some s → pyStartsWith (pyStrip s) "http://" = true →
      pyContains (pyStrip s) "/cardlist/cardimages/" = true →
      normaliseImageUrl u code sc = buildDefaultImageUrl code sc) ∧
    pyStartsWith (buildDefaultImageUrl code sc) "https://" = true := by
  refine ⟨?_, rfl, ?_, ?_, ?_, ?_, ?_, buildDefaultImageUrl_https code sc⟩
  · -- always http or https
    match u with
    | none => exact Or.inl (buildDefaultImageUrl_https code sc)
    | some s =>
      by_cases hs : s = ""
      · simp only [normaliseImageUrl, if_pos hs]
        exact Or.inl (buildDefaultImageUrl_https code sc)
      · by_cases hstrip : pyStrip s = ""
        · simp only [normaliseImageUrl, if_neg hs, if_pos hstrip]
          exact Or.inl (buildDefaultImageUrl_https code sc)
        · simp only [normaliseImageUrl, if_neg hs, if_neg hstrip]
          set t := if pyStartsWith (pyStrip s) "//" then "https:" ++ pyStrip s else pyStrip s with ht
          unfold normaliseImageUrlAbs
          by_cases hcond : (pyStartsWith t "http://" || pyStartsWith t "https://") = true
          · rw [if_pos hcond]
            by_cases hcont : pyContains t "/cardlist/cardimages/" = true
            · rw [if_pos hcont]
              exact Or.inl (buildDefaultImageUrl_https code sc)
            · rw [if_neg hcont]
              rcases Bool.or_eq_true _ _ |>.mp hcond with h | h
              · exact Or.inr h
              · exact Or.inl h
          · rw [if_neg hcond]
            exact Or.inl (buildDefaultImageUrl_https code sc)
  · -- stripped-empty input
    intro s hu hstrip
    subst hu
    by_cases hs : s = ""
    · simp only [normaliseImageUrl, if_pos hs]
    · simp only [normaliseImageUrl, if_neg hs, if_pos hstrip]
  · -- https input
    intro s hu h2
    subst hu
    have hs : s ≠ "" := by
      intro he
      subst he
      rw [show pyStrip "" = "" from rfl] at h2
      rw [empty_not_startsWith_https] at h2
      cases h2
    have hstrip : pyStrip s ≠ "" := by
      intro he
      rw [he, empty_not_startsWith_https] at h2
      cases h2
    have hss : pyStartsWith (pyStrip s) "//" = false := https_not_slashslash _ h2
    simp only [normaliseImageUrl, if_neg hs, if_neg hstrip, hss, Bool.false_eq_true, if_false]
    unfold normaliseImageUrlAbs
    rw [if_pos (by rw [h2, Bool.or_true])]
    by_cases hcont : pyContains (pyStrip s) "/cardlist/cardimages/" = true
    · rw [if_pos hcont]
      exact buildDefaultImageUrl_https code sc
    · rw [if_neg hcont]
      exact h2
  · -- protocol-relative input
    intro s hu h2
    subst hu
    have hs : s ≠ "" := by
      intro he
      subst he
      rw [show pyStrip "" = "" from rfl] at h2
      rw [empty_not_startsWith_slashslash] at h2
      cases h2
    have hstrip : pyStrip s ≠ "" := by
      intro he
      rw [he, empty_not_startsWith_slashslash] at h2
      cases h2
    simp only [normaliseImageUrl, if_neg hs, if_neg hstrip, h2, if_true]
    have hhttps := startsWith_https_concat (pyStrip s) h2
    unfold normaliseImageUrlAbs
    rw [if_pos (by rw [hhttps, Bool.or_true])]
    by_cases hcont : pyContains ("https:" ++ pyStrip s) "/cardlist/cardimages/" = true
    · rw [if_pos hcont]
      exact buildDefaultImageUrl_https code sc
    · rw [if_neg hcont]
      exact hhttps
  · -- http pass-through
    intro s hu h2 h3
    subst hu
    have hs : s ≠ "" := by
      intro he
      subst he
      rw [show pyStrip "" = "" from rfl] at h2
      rw [empty_not_startsWith_http] at h2
      cases h2
    have hstrip : pyStrip s ≠ "" := by
      intro he
      rw [he, empty_not_startsWith_http] at h2
      cases h2
    have hss : pyStartsWith (pyStrip s) "//" = false := http_not_slashslash _ h2
    simp only [normaliseImageUrl, if_neg hs, if_neg hstrip, hss, Bool.false_eq_true, if_false]
    unfold normaliseImageUrlAbs
    rw [if_pos (by rw [h2, Bool.true_or]), if_neg (by rw [h3]; exact Bool.false_ne_true)]
  · -- http matching the canonical image path
    intro s hu h2 h3
    subst hu
    have hs : s ≠ "" := by
      intro he
      subst he
      rw [show pyStrip "" = "" from rfl] at h2
      rw [empty_not_startsWith_http] at h2
      cases h2
    have hstrip : pyStrip s ≠ "" := by
      intro he
      rw [he, empty_not_startsWith_http] at h2
      cases h2
    have hss : pyStartsWith (pyStrip s) "//" = false := http_not_slashslash _ h2
    simp only [normaliseImageUrl, if_neg hs, if_neg hstrip, hss, Bool.false_eq_true, if_false]
    unfold normaliseImageUrlAbs
    rw [if_pos (by rw [h2, Bool.true_or]), if_pos h3]

/-- Witness for C3 on a protocol-relative input. -/
theorem c3_image_url_witness :
    pyStartsWith
      (normaliseImageUrl (some "//img.ws-tcg.com/x.png") "DDD/S97-001" "DDD/S97")
      "https://" = true :=
  (c3_image_url_amended (some "//img.ws-tcg.com/x.png") "DDD/S97-001" "DDD/S97").2.2.2.2.1
    "//img.ws-tcg.com/x.png" rfl (by decide)

/-! ## C9: card detail-page URL construction -/

/-- C9 counterexample: for the Japanese/default language the language
suffix is the bare `&l`, not omitted, so the generated URL differs from
the claimed suffix-free URL. -/
theorem c9_card_page_url_counterexample :
    buildCardPageUrl "DDD/S97-001" "ja"
      = "https://ws-tcg.com/cardlist/?cardno=DDD/S97-001&l" ∧
    buildCardPageUrl "DDD/S97-001" "ja"
      ≠ "https://ws-tcg.com/cardlist/?cardno=DDD/S97-001" := by
  constructor
  · rfl
  · decide

/-- C9 (amended): `build_card_page_url` embeds the URL-encoded card code
(safe characters `/` and `-`) in the fixed template; the language is
stripped and lower-cased first; for the Japanese/default languages
(empty, `ja`, `jp`, `japanese`) the suffix is the bare `&l`, and for
every other language it is `&l=` followed by the percent-encoded
normalised language. -/
theorem c9_card_page_url_amended (code lang : String) :
    (pyLower (pyStrip lang) = "" ∨
        pyLower (pyStrip lang) ∈ (["ja", "jp", "japanese"] : List String) →
      buildCardPageUrl code lang
        = "https://ws-tcg.com/cardlist/?cardno=" ++ pyQuote code ['/', '-'] ++ "&l") ∧
    (¬(pyLower (pyStrip lang) = "" ∨
        pyLower (pyStrip lang) ∈ (["ja", "jp", "japanese"] : List String)) →
      buildCardPageUrl code lang
        = "https://ws-tcg.com/cardlist/?cardno=" ++ pyQuote code ['/', '-'] ++
            ("&l=" ++ pyQuote (pyLower (pyStrip lang)) [])) := by
  constructor
  · intro h
    simp only [buildCardPageUrl, cardPageUrlTemplate, if_pos h]
  · intro h
    simp only [buildCardPageUrl, cardPageUrlTemplate, if_neg h]

/-- Witness for C9 at language `"EN"`: the suffix is `&l=en`. -/
theorem c9_card_page_url_witness :
    buildCardPageUrl "DDD/S97-001" "EN"
      = "https://ws-tcg.com/cardlist/?cardno=DDD/S97-001&l=en" := by
  rw [(c9_card_page_url_amended "DDD/S97-001" "EN").2 (by decide)]
  decide

/-! ## Order lemmas for the card sort key -/

theorem char_eq_of_toNat_eq {a b : Char} (h : a.toNat = b.toNat) : a = b := by
  rcases a with ⟨⟨⟨na, hna⟩⟩, va⟩
  rcases b with ⟨⟨⟨nb, hnb⟩⟩, vb⟩
  simp only [Char.toNat, UInt32.toNat] at h
  subst h
  rfl

theorem string_eq_of_data_eq {a b : String} (h : a.data = b.data) : a = b := by
  have h1 : String.mk a.data = String.mk b.data := by rw [h]
  exact h1

theorem strLtb_irrefl : ∀ l : List Char, strLtb l l = false := by
  intro l
  induction l with
  | nil => rfl
  | cons a as ih => simp [strLtb, ih]

theorem strLtb_asymm : ∀ l1 l2 : List Char, strLtb l1 l2 = true → strLtb l2 l1 = false := by
  intro l1
  induction l1 with
  | nil =>
    intro l2 h
    cases l2 with
    | nil => simp [strLtb] at h
    | cons b bs => rfl
  | cons a as ih =>
    intro l2 h
    cases l2 with
    | nil => simp [strLtb] at h
    | cons b bs =>
      rw [strLtb] at h
      rw [strLtb]
      by_cases hab : a.toNat < b.toNat
      · rw [if_neg (by omega), if_pos hab]
      · rw [if_neg hab] at h
        by_cases hba : b.toNat < a.toNat
        · rw [if_pos hba] at h; cases h
        · rw [if_neg hba] at h
          rw [if_neg hba, if_neg hab]
          exact ih bs h

theorem strLtb_eq_of_not_lt : ∀ l1 l2 : List Char,
    strLtb l1 l2 = false → strLtb l2 l1 = false → l1 = l2 := by
  intro l1
  induction l1 with
  | nil =>
    intro l2 h _
    cases l2 with
    | nil => rfl
    | cons b bs => simp [strLtb] at h
  | cons a as ih =>
    intro l2 h h2
    cases l2 with
    | nil => simp [strLtb] at h2
    | cons b bs =>
      rw [strLtb] at h h2
      by_cases hab : a.toNat < b.toNat
      · rw [if_pos hab] at h; cases h
      · by_cases hba : b.toNat < a.toNat
        · rw [if_pos hba] at h2; cases h2
        · rw [if_neg hab, if_neg hba] at h
          rw [if_neg hba, if_neg hab] at h2
          have hchar : a = b := char_eq_of_toNat_eq (by omega)
          rw [hchar, ih bs h h2]

theorem strLtb_linear : ∀ z x : List Char, strLtb z x = true →
    ∀ y : List Char, strLtb z y = true ∨ strLtb y x = true := by
  intro z
  induction z with
  | nil =>
    intro x h y
    cases x with
    | nil => simp [strLtb] at h
    | cons b bs =>
      cases y with
      | nil => exact Or.inr h
      | cons c cs => exact Or.inl rfl
  | cons a as ih =>
    intro x h y
    cases x with
    | nil => simp [strLtb] at h
    | cons b bs =>
      cases y with
      | nil => exact Or.inr rfl
      | cons c cs =>
        rw [strLtb] at h
        rcases Nat.lt_trichotomy a.toNat c.toNat with hac | hac | hac
        · exact Or.inl (by rw [strLtb, if_pos hac])
        · by_cases hab : a.toNat < b.toNat
          · exact Or.inr (by rw [strLtb, if_pos (by omega)])
          · rw [if_neg hab] at h
            by_cases hba : b.toNat < a.toNat
            · rw [if_pos hba] at h; cases h
            · rw [if_neg hba] at h
              rcases ih bs h cs with h1 | h1
              · refine Or.inl ?_
                rw [strLtb, if_neg (by omega), if_neg (by omega)]
                exact h1
              · refine Or.inr ?_
                rw [strLtb, if_neg (by omega), if_neg (by omega)]
                exact h1
        · by_cases hab : a.toNat < b.toNat
          · exact Or.inr (by rw [strLtb, if_pos (by omega)])
          · rw [if_neg hab] at h
            by_cases hba : b.toNat < a.toNat
            · rw [if_pos hba] at h; cases h
            · exact Or.inr (by rw [strLtb, if_pos (by omega)])

theorem cardKeyLt_irrefl (a : CardRow) : cardKeyLt a a = false := by
  simp [cardKeyLt, strLtb_irrefl]

theorem cardKeyLt_asymm {a b : CardRow} (h : cardKeyLt a b = true) :
    cardKeyLt b a = false := by
  unfold cardKeyLt at h ⊢
  rcases (Bool.or_eq_true _ _).mp h with h1 | h1
  · have ha : strLtb b.seriesId.data a.seriesId.data = false := strLtb_asymm _ _ h1
    have hbeq : (b.seriesId == a.seriesId) = false := by
      cases hx : (b.seriesId == a.seriesId) with
      | false => rfl
      | true =>
        have hse : b.seriesId = a.seriesId := beq_iff_eq.mp hx
        rw [hse] at h1
        simp [strLtb_irrefl] at h1
    rw [ha, hbeq]
    rfl
  · rw [Bool.and_eq_true] at h1
    obtain ⟨hbeq, hcc⟩ := h1
    have hsid : a.seriesId = b.seriesId := beq_iff_eq.mp hbeq
    have h1' : strLtb b.seriesId.data a.seriesId.data = false := by
      rw [← hsid]
      exact strLtb_irrefl _
    have h2' : strLtb b.cardCode.data a.cardCode.data = false := strLtb_asymm _ _ hcc
    rw [h1', h2']
    simp

theorem cardKeyLt_linear {z x : CardRow} (h : cardKeyLt z x = true) (y : CardRow) :
    cardKeyLt z y = true ∨ cardKeyLt y x = true := by
  unfold cardKeyLt at h ⊢
  rcases (Bool.or_eq_true _ _).mp h with h1 | h1
  · rcases strLtb_linear _ _ h1 y.seriesId.data with h2 | h2
    · exact Or.inl (by rw [h2]; simp)
    · exact Or.inr (by rw [h2]; simp)
  · rw [Bool.and_eq_true] at h1
    obtain ⟨hbeq, hcc⟩ := h1
    have hsid : z.seriesId = x.seriesId := beq_iff_eq.mp hbeq
    by_cases hzy : strLtb z.seriesId.data y.seriesId.data = true
    · exact Or.inl (by rw [hzy]; simp)
    · by_cases hyx : strLtb y.seriesId.data x.seriesId.data = true
      · exact Or.inr (by rw [hyx]; simp)
      · have hzy' : strLtb z.seriesId.data y.seriesId.data = false :=
          Bool.eq_false_iff.mpr hzy
        have hyx' : strLtb y.seriesId.data x.seriesId.data = false :=
          Bool.eq_false_iff.mpr hyx
        have hyz' : strLtb y.seriesId.data z.seriesId.data = false := by
          rw [hsid]
          exact hyx'
        have hdata : z.seriesId.data = y.seriesId.data :=
          strLtb_eq_of_not_lt _ _ hzy' hyz'
        have hstr : z.seriesId = y.seriesId := string_eq_of_data_eq hdata
        rcases strLtb_linear _ _ hcc y.cardCode.data with h2 | h2
        · refine Or.inl ?_
          rw [beq_iff_eq.mpr hstr, h2]
          simp
        · refine Or.inr ?_
          have hyxs : y.seriesId = x.seriesId := by
            rw [← hstr]
            exact hsid
          rw [beq_iff_eq.mpr hyxs, h2]
          simp

theorem cardKeyLe_trans {a b c : CardRow}
    (hab : cardKeyLt b a = false) (hbc : cardKeyLt c b = false) :
    cardKeyLt c a = false := by
  cases hx : cardKeyLt c a with
  | false => rfl
  | true =>
    rcases cardKeyLt_linear hx b with h | h
    · rw [h] at hbc; cases hbc
    · rw [h] at hab; cases hab

/-! ## Insertion sort lemmas -/

theorem chain'_pairwise_of_trans {α : Type} {R : α → α → Prop}
    (tr : ∀ a b c, R a b → R b c → R a c) :
    ∀ l : List α, l.Chain' R → l.Pairwise R := by
  intro l
  induction l with
  | nil => intro _; exact List.Pairwise.nil
  | cons a rest ih =>
    intro h
    have hrest : rest.Pairwise R := ih h.tail
    refine List.Pairwise.cons ?_ hrest
    intro b hb
    cases rest with
    | nil => cases hb
    | cons c t =>
      have hac : R a c := (List.chain'_cons.mp h).1
      rcases List.mem_cons.mp hb with rfl | hbt
      · exact hac
      · exact tr a c b hac ((List.pairwise_cons.mp hrest).1 b hbt)

theorem insertCard_head (a : CardRow) :
    ∀ (l : List CardRow) (y : CardRow),
      (insertCard a l).head? = some y → y = a ∨ l.head? = some y := by
  intro l y h
  cases l with
  | nil =>
    simp only [insertCard, List.head?_cons, Option.some.injEq] at h
    exact Or.inl h.symm
  | cons b rest =>
    rw [insertCard] at h
    by_cases hab : cardKeyLt a b = true
    · rw [if_pos hab] at h
      simp only [List.head?_cons, Option.some.injEq] at h
      exact Or.inl h.symm
    · rw [if_neg hab] at h
      simp only [List.head?_cons, Option.some.injEq] at h
      exact Or.inr (by simp [h])

theorem insertCard_chain' (a : CardRow) :
    ∀ l : List CardRow, l.Chain' (fun x y => cardKeyLt y x = false) →
      (insertCard a l).Chain' (fun x y => cardKeyLt y x = false) := by
  intro l
  induction l with
  | nil => intro _; simp [insertCard]
  | cons b rest ih =>
    intro h
    rw [insertCard]
    by_cases hab : cardKeyLt a b = true
    · rw [if_pos hab]
      exact List.chain'_cons.mpr ⟨cardKeyLt_asymm hab, h⟩
    · rw [if_neg hab]
      rw [List.chain'_cons']
      refine ⟨fun y hy => ?_, ih h.tail⟩
      rcases insertCard_head a rest y hy with rfl | hy2
      · exact Bool.eq_false_iff.mpr hab
      · exact (List.chain'_cons'.mp h).1 y hy2

theorem insertCard_perm (a : CardRow) :
    ∀ l : List CardRow, List.Perm (insertCard a l) (a :: l) := by
  intro l
  induction l with
  | nil => exact List.Perm.refl _
  | cons b rest ih =>
    rw [insertCard]
    by_cases hab : cardKeyLt a b = true
    · rw [if_pos hab]
    · rw [if_neg hab]
      exact (List.Perm.cons b ih).trans (List.Perm.swap a b rest)

theorem sortCards_go_perm :
    ∀ (l acc : List CardRow),
      List.Perm (l.foldl (fun acc a => insertCard a acc) acc) (acc ++ l) := by
  intro l
  induction l with
  | nil =>
    intro acc
    simp only [List.foldl_nil, List.append_nil]
    exact List.Perm.refl _
  | cons a rest ih =>
    intro acc
    rw [List.foldl_cons]
    refine (ih (insertCard a acc)).trans ?_
    refine ((insertCard_perm a acc).append_right rest).trans ?_
    exact List.perm_middle.symm

theorem sortCards_perm (l : List CardRow) : List.Perm (sortCards l) l := by
  have h := sortCards_go_perm l []
  simpa [sortCards] using h

theorem sortCards_go_chain' :
    ∀ (l acc : List CardRow), acc.Chain' (fun x y => cardKeyLt y x = false) →
      (l.foldl (fun acc a => insertCard a acc) acc).Chain'
        (fun x y => cardKeyLt y x = false) := by
  intro l
  induction l with
  | nil => intro acc h; exact h
  | cons a rest ih =>
    intro acc h
    rw [List.foldl_cons]
    exact ih _ (insertCard_chain' a acc h)

theorem sortCards_chain' (l : List CardRow) :
    (sortCards l).Chain' (fun x y => cardKeyLt y x = false) :=
  sortCards_go_chain' l [] List.chain'_nil

theorem insertCard_append_of_all (a : CardRow) :
    ∀ l : List CardRow, (∀ b ∈ l, cardKeyLt a b = false) →
      insertCard a l = l ++ [a] := by
  intro l
  induction l with
  | nil => intro _; rfl
  | cons b rest ih =>
    intro h
    rw [insertCard, if_neg (by simp [h b (List.mem_cons_self _ _)])]
    rw [ih fun x hx => h x (List.mem_cons_of_mem _ hx)]
    rfl

theorem sortCards_go_of_sorted :
    ∀ (l acc : List CardRow), (acc ++ l).Chain' (fun x y => cardKeyLt y x = false) →
      l.foldl (fun acc a => insertCard a acc) acc = acc ++ l := by
  intro l
  induction l with
  | nil => intro acc _; simp
  | cons a rest ih =>
    intro acc h
    rw [List.foldl_cons]
    have hpair : (acc ++ a :: rest).Pairwise (fun x y => cardKeyLt y x = false) :=
      @chain'_pairwise_of_trans CardRow (fun x y => cardKeyLt y x = false)
        (fun _ _ _ hxy hyz => cardKeyLe_trans hxy hyz) _ h
    have hcross := (List.pairwise_append.mp hpair).2.2
    have hall : ∀ b ∈ acc, cardKeyLt a b = false := fun b hb =>
      hcross b hb a (List.mem_cons_self _ _)
    rw [insertCard_append_of_all a acc hall]
    have hassoc : (acc ++ [a]) ++ rest = acc ++ a :: rest := by simp
    rw [ih (acc ++ [a]) (by rw [hassoc]; exact h)]
    exact hassoc

theorem sortCards_of_chain' (l : List CardRow)
    (h : l.Chain' (fun x y => cardKeyLt y x = false)) : sortCards l = l := by
  have hgo := sortCards_go_of_sorted l [] (by simpa using h)
  simpa [sortCards] using hgo

/-! ## Dedup lemmas -/

theorem dedupByKey_not_seen {α κ : Type} [DecidableEq κ] (key : α → κ) :
    ∀ (l : List α) (seen : List κ) (x : α),
      x ∈ dedupByKey key seen l → key x ∉ seen := by
  intro l
  induction l with
  | nil => intro seen x h; cases h
  | cons a rest ih =>
    intro seen x h
    rw [dedupByKey] at h
    by_cases hs : key a ∈ seen
    · rw [if_pos hs] at h
      exact ih seen x h
    · rw [if_neg hs] at h
      rcases List.mem_cons.mp h with rfl | h2
      · exact hs
      · intro hx
        exact ih _ x h2 (List.mem_cons_of_mem _ hx)

theorem dedupByKey_pairwise {α κ : Type} [DecidableEq κ] (key : α → κ) :
    ∀ (l : List α) (seen : List κ),
      (dedupByKey key seen l).Pairwise (fun a b => key a ≠ key b) := by
  intro l
  induction l with
  | nil => intro seen; exact List.Pairwise.nil
  | cons a rest ih =>
    intro seen
    rw [dedupByKey]
    by_cases hs : key a ∈ seen
    · rw [if_pos hs]
      exact ih seen
    · rw [if_neg hs]
      refine List.Pairwise.cons ?_ (ih _)
      intro b hb he
      exact dedupByKey_not_seen key rest _ b hb (by rw [← he]; exact List.mem_cons_self _ _)

theorem dedupByKey_mem_keys {α κ : Type} [DecidableEq κ] (key : α → κ) :
    ∀ (l : List α) (seen : List κ) (k : κ),
      k ∈ (dedupByKey key seen l).map key ↔ (k ∈ l.map key ∧ k ∉ seen) := by
  intro l
  induction l with
  | nil => intro seen k; simp [dedupByKey]
  | cons a rest ih =>
    intro seen k
    rw [dedupByKey]
    by_cases hs : key a ∈ seen
    · rw [if_pos hs, ih]
      simp only [List.map_cons, List.mem_cons]
      constructor
      · rintro ⟨hm, hns⟩
        exact ⟨Or.inr hm, hns⟩
      · rintro ⟨hor, hns⟩
        rcases hor with heq | hm
        · exact absurd (by rw [heq]; exact hs) hns
        · exact ⟨hm, hns⟩
    · rw [if_neg hs]
      simp only [List.map_cons, List.mem_cons, ih]
      constructor
      · rintro (heq | ⟨hm, hns⟩)
        · exact ⟨Or.inl heq, by rw [heq]; exact hs⟩
        · exact ⟨Or.inr hm, fun hk => hns (Or.inr hk)⟩
      · rintro ⟨hor, hns⟩
        rcases hor with heq | hm
        · exact Or.inl heq
        · by_cases hk : k = key a
          · exact Or.inl hk
          · exact Or.inr ⟨hm, fun hmem => hmem.elim hk hns⟩

theorem dedupByKey_all_seen {α κ : Type} [DecidableEq κ] (key : α → κ) :
    ∀ (l : List α) (seen : List κ),
      (∀ x ∈ l, key x ∈ seen) → dedupByKey key seen l = [] := by
  intro l
  induction l with
  | nil => intro _ _; rfl
  | cons a rest ih =>
    intro seen h
    rw [dedupByKey, if_pos (h a (List.mem_cons_self _ _))]
    exact ih seen fun x hx => h x (List.mem_cons_of_mem _ hx)

theorem dedupByKey_append {α κ : Type} [DecidableEq κ] (key : α → κ) :
    ∀ (l l2 : List α) (seen : List κ),
      l.Pairwise (fun a b => key a ≠ key b) → (∀ x ∈ l, key x ∉ seen) →
      ∃ seen2 : List κ,
        dedupByKey key seen (l ++ l2) = l ++ dedupByKey key seen2 l2 ∧
        ∀ k, k ∈ seen2 ↔ (k ∈ seen ∨ k ∈ l.map key) := by
  intro l
  induction l with
  | nil =>
    intro l2 seen _ _
    exact ⟨seen, rfl, by simp⟩
  | cons a rest ih =>
    intro l2 seen hpw hns
    have ha : key a ∉ seen := hns a (List.mem_cons_self _ _)
    rw [List.cons_append, dedupByKey, if_neg ha]
    have hrest : ∀ x ∈ rest, key x ∉ (key a :: seen) := by
      intro x hx hmem
      rcases List.mem_cons.mp hmem with h1 | h1
      · exact (List.pairwise_cons.mp hpw).1 x hx h1.symm
      · exact hns x (List.mem_cons_of_mem _ hx) h1
    obtain ⟨seen2, heq, hiff⟩ := ih l2 (key a :: seen) hpw.tail hrest
    refine ⟨seen2, by rw [heq]; rfl, ?_⟩
    intro k
    rw [hiff]
    simp only [List.mem_cons, List.map_cons]
    tauto

theorem find?_append_of_some {α : Type} (p : α → Bool) :
    ∀ (l1 l2 : List α) (v : α), l1.find? p = some v → (l1 ++ l2).find? p = some v := by
  intro l1
  induction l1 with
  | nil => intro l2 v h; cases h
  | cons a rest ih =>
    intro l2 v h
    rw [List.cons_append]
    by_cases hp : p a = true
    · rw [List.find?_cons_of_pos _ hp] at h
      rw [List.find?_cons_of_pos _ hp]
      exact h
    · rw [List.find?_cons_of_neg _ hp] at h
      rw [List.find?_cons_of_neg _ hp]
      exact ih l2 v h

theorem series_find?_cons (i : String) (a : SeriesRow) (l : List SeriesRow) :
    (a :: l).find? (fun s => s.id == i)
      = if a.id == i then some a else l.find? (fun s => s.id == i) := by
  by_cases h : (a.id == i) = true
  · rw [if_pos h]
    exact List.find?_cons_of_pos _ h
  · rw [if_neg h]
    exact List.find?_cons_of_neg _ h

theorem dedup_series_find? (i : String) :
    ∀ (l : List SeriesRow) (seen : List String), i ∉ seen →
      (dedupByKey (fun s => s.id) seen l).find? (fun s => s.id == i)
        = l.find? (fun s => s.id == i) := by
  intro l
  induction l with
  | nil => intro seen _; rfl
  | cons a rest ih =>
    intro seen hi
    rw [dedupByKey]
    by_cases hs : a.id ∈ seen
    · rw [if_pos hs]
      have hai : (a.id == i) = false := by
        rw [beq_eq_false_iff_ne]
        intro he
        exact hi (he ▸ hs)
      rw [series_find?_cons, if_neg (by simp [hai])]
      exact ih seen hi
    · rw [if_neg hs]
      by_cases hai : (a.id == i) = true
      · rw [series_find?_cons, series_find?_cons, if_pos hai, if_pos hai]
      · rw [series_find?_cons, series_find?_cons, if_neg hai, if_neg hai]
        refine ih _ ?_
        intro hmem
        rcases List.mem_cons.mp hmem with h1 | h1
        · rw [beq_iff_eq] at hai
          exact hai h1.symm
        · exact hi h1

/-! ## Merge facts -/

theorem exportBundle_ext {A B : ExportBundle}
    (hs : A.series = B.series) (hc : A.cards = B.cards) : A = B := by
  cases A
  cases B
  cases hs
  cases hc
  rfl

theorem dedup_self_append {α κ : Type} [DecidableEq κ] (key : α → κ) (S : List α)
    (hpw : S.Pairwise (fun a b => key a ≠ key b)) :
    dedupByKey key [] (S ++ (S ++ [])) = S := by
  obtain ⟨seen2, heq, hiff⟩ := dedupByKey_append key S (S ++ []) [] hpw (by simp)
  rw [heq]
  have hall : ∀ x ∈ S ++ [], key x ∈ seen2 := by
    intro x hx
    rw [List.append_nil] at hx
    exact (hiff (key x)).mpr (Or.inr (List.mem_map_of_mem key hx))
  rw [dedupByKey_all_seen key _ _ hall, List.append_nil]

theorem mergeBundles_cards_pairwise (bundles : List ExportBundle) :
    (mergeBundles bundles).cards.Pairwise
      (fun a b => (a.id, a.cardCode) ≠ (b.id, b.cardCode)) := by
  have hX := dedupByKey_pairwise (fun c : CardRow => (c.id, c.cardCode))
    ((bundles.map (fun b => b.cards)).flatten) []
  have hperm := sortCards_perm
    (dedupByKey (fun c : CardRow => (c.id, c.cardCode)) []
      ((bundles.map (fun b => b.cards)).flatten))
  exact (hperm.pairwise_iff (fun h => Ne.symm h)).mpr hX

/-! ## C5: merged card list sorted, unique, idempotent re-merge -/

/-- C5: for every input list of bundles, the merged card list is sorted
ascending by `(seriesId, cardCode)` (adjacent pairs never descend), no two
cards share an `(id, cardCode)` pair, and re-merging the merged bundle
with itself returns it unchanged. -/
theorem c5_merge_sorted_unique_idempotent (bundles : List ExportBundle) :
    (mergeBundles bundles).cards.Chain' (fun a b => cardKeyLt b a = false) ∧
    (mergeBundles bundles).cards.Pairwise
      (fun a b => (a.id, a.cardCode) ≠ (b.id, b.cardCode)) ∧
    mergeBundles [mergeBundles bundles, mergeBundles bundles] = mergeBundles bundles := by
  refine ⟨sortCards_chain' _, mergeBundles_cards_pairwise bundles, ?_⟩
  apply exportBundle_ext
  · show dedupByKey (fun s => s.id) []
      ((mergeBundles bundles).series ++ ((mergeBundles bundles).series ++ []))
      = (mergeBundles bundles).series
    exact dedup_self_append _ _ (dedupByKey_pairwise _ _ _)
  · show sortCards (dedupByKey (fun c => (c.id, c.cardCode)) []
      ((mergeBundles bundles).cards ++ ((mergeBundles bundles).cards ++ [])))
      = (mergeBundles bundles).cards
    rw [dedup_self_append _ _ (mergeBundles_cards_pairwise bundles)]
    exact sortCards_of_chain' _ (sortCards_chain' _)

/-! ## C6: content commutativity and first-bundle tie-break -/

/-- C6 counterexample: when the two bundles hold different Series records
with the same id, the surviving record depends on the argument order, so
the final sets of Series records differ, contradicting the claim's "same
final sets of Series and Card records". -/
theorem c6_merge_counterexample :
    (⟨"s", "nameB", "SC", 2024⟩ : SeriesRow) ∈
      (mergeBundles [⟨[⟨"s", "nameB", "SC", 2024⟩], []⟩,
        ⟨[⟨"s", "nameA", "SC", 2024⟩], []⟩]).series ∧
    (⟨"s", "nameB", "SC", 2024⟩ : SeriesRow) ∉
      (mergeBundles [⟨[⟨"s", "nameA", "SC", 2024⟩], []⟩,
        ⟨[⟨"s", "nameB", "SC", 2024⟩], []⟩]).series := by
  decide

/-- C6 (amended): `merge_bundles [A, B]` and `merge_bundles [B, A]` agree
on the set of series ids and on the set of card `(id, cardCode)` keys
(the full records may differ when both bundles hold distinct records under
the same key); and when `A` contains a series with id `i`, the record
surviving under id `i` in `merge_bundles [A, B]` is `A`'s first such
record, regardless of `B`. -/
theorem c6_merge_amended (A B : ExportBundle) (i : String)
    (h : (A.series.find? (fun s => s.id == i)).isSome = true) :
    (∀ k : String,
        k ∈ (mergeBundles [A, B]).series.map (fun s => s.id) ↔
        k ∈ (mergeBundles [B, A]).series.map (fun s => s.id)) ∧
    (∀ p : String × String,
        p ∈ (mergeBundles [A, B]).cards.map (fun c => (c.id, c.cardCode)) ↔
        p ∈ (mergeBundles [B, A]).cards.map (fun c => (c.id, c.cardCode))) ∧
    (mergeBundles [A, B]).series.find? (fun s => s.id == i)
      = A.series.find? (fun s => s.id == i) := by
  refine ⟨?_, ?_, ?_⟩
  · intro k
    rw [show (mergeBundles [A, B]).series
        = dedupByKey (fun s => s.id) [] (A.series ++ (B.series ++ [])) from rfl]
    rw [show (mergeBundles [B, A]).series
        = dedupByKey (fun s => s.id) [] (B.series ++ (A.series ++ [])) from rfl]
    rw [dedupByKey_mem_keys, dedupByKey_mem_keys]
    simp only [List.map_append, List.mem_append, List.not_mem_nil, not_false_iff, and_true]
    tauto
  · intro p
    rw [show (mergeBundles [A, B]).cards
        = sortCards (dedupByKey (fun c => (c.id, c.cardCode)) []
            (A.cards ++ (B.cards ++ []))) from rfl]
    rw [show (mergeBundles [B, A]).cards
        = sortCards (dedupByKey (fun c => (c.id, c.cardCode)) []
            (B.cards ++ (A.cards ++ []))) from rfl]
    rw [((sortCards_perm _).map (fun c => (c.id, c.cardCode))).mem_iff]
    rw [((sortCards_perm _).map (fun c => (c.id, c.cardCode))).mem_iff]
    rw [dedupByKey_mem_keys, dedupByKey_mem_keys]
    simp only [List.map_append, List.mem_append, List.not_mem_nil, not_false_iff, and_true]
    tauto
  · rw [show (mergeBundles [A, B]).series
        = dedupByKey (fun s => s.id) [] (A.series ++ (B.series ++ [])) from rfl]
    rw [dedup_series_find? i _ [] (by simp)]
    obtain ⟨v, hv⟩ := Option.isSome_iff_exists.mp h
    rw [find?_append_of_some _ _ _ v hv, hv]

/-- Witness for C6: two one-series bundles sharing the id `"s"`; the
survivor is the record from the first argument. -/
theorem c6_merge_witness :
    (mergeBundles [⟨[⟨"s", "n1", "SC", 2024⟩], []⟩,
        ⟨[⟨"s", "n2", "SC", 2024⟩], []⟩]).series.find? (fun s => s.id == "s")
      = ([⟨"s", "n1", "SC", 2024⟩] : List SeriesRow).find? (fun s => s.id == "s") :=
  (c6_merge_amended ⟨[⟨"s", "n1", "SC", 2024⟩], []⟩ ⟨[⟨"s", "n2", "SC", 2024⟩], []⟩ "s"
    (by decide)).2.2

/-! ## C7 lemmas -/

theorem findSome?_none {α β : Type} (f : α → Option β) :
    ∀ l : List α, (∀ a ∈ l, f a = none) → l.findSome? f = none := by
  intro l
  induction l with
  | nil => intro _; rfl
  | cons a rest ih =>
    intro h
    have ha := h a (List.mem_cons_self _ _)
    rw [List.findSome?_cons, ha]
    exact ih fun x hx => h x (List.mem_cons_of_mem _ hx)

theorem extractInt_obj_none (fields : List (String × Json)) (ks : List String)
    (h : ∀ k ∈ ks, lookupJ fields k = none) :
    extractInt (Json.jobj fields) ks = none := by
  unfold extractInt
  cases hsz : jsonSize (Json.jobj fields) with
  | zero => rfl
  | succ n =>
    rw [extractIntGo]
    apply findSome?_none
    intro k hk
    rw [h k hk]

theorem firstBoolJ_none (fields : List (String × Json)) :
    ∀ ks : List String, (∀ k ∈ ks, lookupJ fields k = none) →
      firstBoolJ fields ks = none := by
  intro ks
  induction ks with
  | nil => intro _; rfl
  | cons k rest ih =>
    intro h
    rw [firstBoolJ, h k (List.mem_cons_self _ _)]
    exact ih fun x hx => h x (List.mem_cons_of_mem _ hx)

theorem hasNext_scenario (perPage : Option Nat) (hpp : perPage.getD 50 ≤ 50)
    (items : List Json) (h50 : items.length = 50) :
    hasNextPage perPage (Json.jobj [("items", Json.jarr items)]) 1 items.length = true := by
  have hb : firstBoolJ [("items", Json.jarr items)] ["hasNext", "has_next", "next"] = none :=
    firstBoolJ_none _ _ (by intro k hk; fin_cases hk <;> rfl)
  have hpager : lookupJ [("items", Json.jarr items)] "pager" = none := rfl
  have hmax : extractInt (Json.jobj [("items", Json.jarr items)])
      ["maxPage", "max_page", "total_pages", "page_max"] = none :=
    extractInt_obj_none _ _ (by intro k hk; fin_cases hk <;> rfl)
  simp only [hasNextPage, hb, hpager, hmax, h50]
  cases perPage with
  | none => decide
  | some n =>
    simp only [Option.getD] at hpp
    by_cases hn : n = 0
    · subst hn
      decide
    · simp only [hn, if_false]
      rw [if_neg (by omega), if_neg (by omega)]

/-! ## C7: pagination termination -/

/-- C7: with a backend returning 50 items on page 1 and an empty item
list on page 2 (no total, no has-next flag, no max-page metadata), and a
configured page size of at most the default 50, `fetch_cards` returns
exactly the 50 page-1 cards and issues exactly 2 page requests. -/
theorem c7_pagination (items : List Json) (perPage : Option Nat)
    (h50 : items.length = 50) (hpp : perPage.getD 50 ≤ 50) :
    fetchCards perPage
      (fun p => if p = 1 then Json.jobj [("items", Json.jarr items)]
        else Json.jobj [("items", Json.jarr [])])
      = Except.ok (items, 2) := by
  have hne : items.isEmpty = false := by
    cases items with
    | nil => simp at h50
    | cons a t => rfl
  have hb1 : (fun p => if p = 1 then Json.jobj [("items", Json.jarr items)]
      else Json.jobj [("items", Json.jarr [])]) 1 = Json.jobj [("items", Json.jarr items)] := rfl
  have hb2 : (fun p => if p = 1 then Json.jobj [("items", Json.jarr items)]
      else Json.jobj [("items", Json.jarr [])]) (1 + 1)
      = Json.jobj [("items", Json.jarr [])] := rfl
  have hitems1 : extractItems (Json.jobj [("items", Json.jarr items)]) = items := rfl
  have htotal : extractInt (Json.jobj [("items", Json.jarr items)])
      ["total", "total_count", "totalCount", "count"] = none :=
    extractInt_obj_none _ _ (by intro k hk; fin_cases hk <;> rfl)
  have hnext := hasNext_scenario perPage hpp items h50
  have hgo : fetchCardsGo perPage
      (fun p => if p = 1 then Json.jobj [("items", Json.jarr items)]
        else Json.jobj [("items", Json.jarr [])]) 200 1 [] none 0 = (items, 2) := by
    rw [show (200 : Nat) = 199 + 1 from rfl, fetchCardsGo]
    simp only [hb1, hitems1, hne, Bool.false_eq_true, if_false, htotal, List.nil_append,
      hnext, if_true]
    rw [show (199 : Nat) = 198 + 1 from rfl, fetchCardsGo]
    simp only [hb2]
    rfl
  unfold fetchCards fetchCardsForSet
  rw [hgo]
  simp [hne]

/-- Witness for C7: 50 null items, default (undiscovered) page size. -/
theorem c7_pagination_witness :
    fetchCards none
      (fun p => if p = 1
        then Json.jobj [("items", Json.jarr (List.replicate 50 Json.null))]
        else Json.jobj [("items", Json.jarr [])])
      = Except.ok (List.replicate 50 Json.null, 2) :=
  c7_pagination (List.replicate 50 Json.null) none (by simp) (by simp)

/-! ## C1 lemmas -/

theorem fetchLoop_alwaysFail (lang : String) :
    ∀ (codes : List String) (dis : Bool),
      fetchLoop alwaysFailOracle lang [] dis codes
        = ([], dis || !codes.isEmpty, codes.map (fun x => (x, false)), codes) := by
  intro codes
  induction codes with
  | nil => intro dis; simp [fetchLoop]
  | cons code rest ih =>
    intro dis
    rw [fetchLoop]
    simp only [fetcherFetch, List.find?_nil, alwaysFailOracle, Option.isNone_none,
      Option.isSome_none, ih (dis || true)]
    simp

theorem runDetail_failed (oracle : String → String → Option PageDetails) (lang : String) :
    ∀ catalogs : List (List String),
      runDetail oracle lang PFState.failed catalogs
        = (PFState.failed,
            catalogs.map (fun cat => (cat.map (fun c => (c, false)), []))) := by
  intro catalogs
  induction catalogs with
  | nil => rfl
  | cons cat rest ih =>
    have hstep : loadSetBundleDetail oracle lang PFState.failed cat
        = (PFState.failed, cat.map (fun c => (c, false)), []) := rfl
    rw [runDetail, hstep]
    simp [ih]

/-! ## C1: detail-extraction failure and later detail calls -/

/-- C1 counterexample: one catalog with two cards and a structurally
failing detail page.  The first card's detail fetch fails, yet the second
card of the same catalog still issues a detail-page request: the attempt
trace of the catalog lists both codes, contradicting the claim that no
later card build in the run attempts a detail fetch. -/
theorem c1_detail_disable_counterexample :
    runDetail alwaysFailOracle "ja" PFState.uninit [["DDD/S97-001", "DDD/S97-002"]]
      = (PFState.failed,
          [([("DDD/S97-001", false), ("DDD/S97-002", false)],
            ["DDD/S97-001", "DDD/S97-002"])]) := rfl

/-- C1 (amended): after the first structural detail-fetch failure, the
remaining cards of the same catalog still issue detail-page requests
(each failing, the card falling back to search-only fields), and the
module-global fetcher slot holds the sentinel; every catalog processed
afterwards aborts its search tier at fetcher acquisition, builds its cards
without enrichment via the fallback tier, issues no detail-page request,
and the pipeline continues to produce one result per catalog. -/
theorem c1_detail_disable_amended (oracle : String → String → Option PageDetails)
    (lang : String) (codes : List String) (catalogs : List (List String)) :
    (fetchFromSearchDetail alwaysFailOracle lang (PFState.ready []) codes).2.2 = codes ∧
    ((fetchFromSearchDetail alwaysFailOracle lang (PFState.ready []) codes).1
      = if codes.isEmpty then PFState.ready [] else PFState.failed) ∧
    loadSetBundleDetail oracle lang PFState.failed codes
      = (PFState.failed, codes.map (fun c => (c, false)), []) ∧
    runDetail oracle lang PFState.failed catalogs
      = (PFState.failed,
          catalogs.map (fun cat => (cat.map (fun c => (c, false)), []))) := by
  refine ⟨?_, ?_, rfl, runDetail_failed oracle lang catalogs⟩
  · cases codes with
    | nil => rfl
    | cons code rest =>
      unfold fetchFromSearchDetail
      simp only [ensureCardPageFetcher]
      simp only [fetchLoop_alwaysFail lang (code :: rest) false]
      simp
  · cases codes with
    | nil => rfl
    | cons code rest =>
      unfold fetchFromSearchDetail
      simp only [ensureCardPageFetcher]
      simp only [fetchLoop_alwaysFail lang (code :: rest) false]
      simp
